import Mathlib

/-!
# Notion identifier parser and its size-bounded cache

A shallow embedding of `parser.go`, `cache.go` and `cache_noop.go`.

* A Go `string` is a finite sequence of bytes: `GoString := List (Fin 256)`.
* A Go call that may return an error or hit a run-time index panic yields an
  `Outcome`: `ok v`, `err e`, or `crash` (index out of range).
* Go `int` counters (`i`, `j`, `hexCount`, `dashCount`) never exceed 36 and
  are modelled by `Nat`; the `int64` size totals of the cache are `Int`.
-/

namespace NotionID

/-! ## Data model -/

/-- A Go `byte`. -/
abbrev Byte := Fin 256

/-- A Go `string`: an immutable sequence of bytes. -/
abbrev GoString := List Byte

/-- The four pre-allocated error values of `parser.go`. -/
inductive ParseError where
  | errInvalidLength
  | errInvalidChar
  | errMisplacedDash
  | errInvalidStruct
deriving DecidableEq

/-- Result of running Go code: a value, a returned error, or a run-time
panic caused by an index out of range. -/
inductive Outcome (α : Type) where
  | ok (v : α)
  | err (e : ParseError)
  | crash
deriving DecidableEq

/-- The byte `-`. -/
def dash : Byte := 45

/-! ## `hexTable` and `isHex` -/

/-- The indices that the composite literal of `hexTable` sets to `true`:
the bytes `0`-`9`, `a`-`f`, `A`-`F`. -/
def hexKeys : List Nat :=
  [48, 49, 50, 51, 52,
   53, 54, 55, 56, 57,
   97, 98, 99, 100, 101, 102,
   65, 66, 67, 68, 69, 70]

/-- The table `hexTable = [256]bool{...}`: 256 entries, `true` exactly at the listed keys. -/
def hexTable : List Bool :=
  (List.range 256).map fun n => decide (n ∈ hexKeys)

/-- The function `isHex(c) = hexTable[c]`; an index outside the table would panic. -/
def isHex (c : Byte) : Outcome Bool :=
  match hexTable[c.val]? with
  | some b => .ok b
  | none => .crash

/-! ## The scanning loops of `parse` -/

/-- Local variables of `parse`: the `[36]byte` buffer and the counters. -/
structure ScanState where
  buf : List Byte
  j : Nat
  hexCount : Nat
  dashCount : Nat
deriving DecidableEq

/-- The statements `buf[j] = c; j++`; a write outside the array panics. -/
def writeBuf (s : ScanState) (c : Byte) : Outcome ScanState :=
  if s.j < s.buf.length then
    .ok { s with buf := s.buf.set s.j c, j := s.j + 1 }
  else .crash

/-- The test `switch hexCount { case 8, 12, 16, 20: ... }` of the 32-byte branch. -/
def isGroupEnd (hexCount : Nat) : Bool :=
  hexCount == 8 || hexCount == 12 || hexCount == 16 || hexCount == 20

/-- The test `switch i { case 8, 13, 18, 23: ... }` of the 36-byte branch. -/
def isDashPos (i : Nat) : Bool :=
  i == 8 || i == 13 || i == 18 || i == 23

/-- One iteration of the loop of `case 32`, at index `i`. -/
def body32 (id : GoString) (i : Nat) (s : ScanState) : Outcome ScanState :=
  match id[i]? with
  | none => .crash
  | some c =>
    match isHex c with
    | .crash => .crash
    | .err e => .err e
    | .ok false => .err .errInvalidChar
    | .ok true =>
      match writeBuf s c with
      | .crash => .crash
      | .err e => .err e
      | .ok s1 =>
        let s2 := { s1 with hexCount := s1.hexCount + 1 }
        if isGroupEnd s2.hexCount then
          match writeBuf s2 dash with
          | .crash => .crash
          | .err e => .err e
          | .ok s3 => .ok { s3 with dashCount := s3.dashCount + 1 }
        else .ok s2

/-- One iteration of the loop of `case 36`, at index `i`. -/
def body36 (id : GoString) (i : Nat) (s : ScanState) : Outcome ScanState :=
  match id[i]? with
  | none => .crash
  | some c =>
    if isDashPos i then
      if c ≠ dash then .err .errMisplacedDash
      else
        match writeBuf s c with
        | .crash => .crash
        | .err e => .err e
        | .ok s1 => .ok { s1 with dashCount := s1.dashCount + 1 }
    else
      match isHex c with
      | .crash => .crash
      | .err e => .err e
      | .ok false => .err .errInvalidChar
      | .ok true =>
        match writeBuf s c with
        | .crash => .crash
        | .err e => .err e
        | .ok s1 => .ok { s1 with hexCount := s1.hexCount + 1 }

/-- The loop `for i = lo; i < lo + n; i++ { body }` with a constant bound:
`n` iterations remain, the next index is `i`.  An error or a panic in the
body leaves the loop at once. -/
def forLoop (body : Nat → ScanState → Outcome ScanState) :
    Nat → Nat → ScanState → Outcome ScanState
  | 0, _, s => .ok s
  | n + 1, i, s =>
    match body i s with
    | .ok s1 => forLoop body n (i + 1) s1
    | .err e => .err e
    | .crash => .crash

/-- The declarations `var buf [36]byte; var hexCount, dashCount int; var i, j int`. -/
def initState : ScanState :=
  { buf := List.replicate 36 0, j := 0, hexCount := 0, dashCount := 0 }

/-- The `switch len(id)` statement of `parse` with its two loops. -/
def scan (id : GoString) : Outcome ScanState :=
  if id.length = 32 then forLoop (body32 id) 32 0 initState
  else if id.length = 36 then forLoop (body36 id) 36 0 initState
  else .ok initState

/-- The function `parse`: length check, scan, structure check, `string(buf[:])`. -/
def parse (id : GoString) : Outcome GoString :=
  if id.length ≠ 32 ∧ id.length ≠ 36 then .err .errInvalidLength
  else
    match scan id with
    | .crash => .crash
    | .err e => .err e
    | .ok s =>
      if s.hexCount ≠ 32 ∨ s.dashCount ≠ 4 then .err .errInvalidStruct
      else .ok s.buf

/-! ## The `Cache` interface and `IDParser.Parse` -/

/-- The interface `Cache`, in state-passing style: `σ` is the state of the
implementation; `Get` returns its two results and the new state, `Set` the
new state. -/
structure Cache (σ : Type) where
  Get : σ → GoString → (GoString × Bool) × σ
  Set : σ → GoString → GoString → σ

/-- The method `(*IDParser).Parse` of a parser whose `cache` field is the
implementation `cache` in state `st`: the result, and the state of the cache
after the call. -/
def IDParser.Parse {σ : Type} (cache : Cache σ) (st : σ) (input : GoString) :
    Outcome GoString × σ :=
  match cache.Get st input with
  | ((val, true), st1) => (.ok val, st1)
  | ((_, false), st1) =>
    match parse input with
    | .crash => (.crash, st1)
    | .err e => (.err e, st1)
    | .ok result => (.ok result, cache.Set st1 input result)

/-! ## `NoOpCache` -/

/-- The struct `cacheEntry`. -/
structure cacheEntry where
  key : GoString
  value : GoString
deriving DecidableEq

/-- The struct `NoOpCache`.  A `*list.Element` is an address (`Nat`):

* `cache` is the map from keys to element addresses;
* `order` is the linked list, as the addresses of its elements, front first;
* `heap p` is the `cacheEntry` that the `Value` of element `p` points to
  (elements unlinked from the list stay readable, as in Go);
* `next` is the first address not yet handed out by `PushFront`.

The mutex `mu` is held during the whole of `Get` and of `Set`, so each call
is one atomic step on this state. -/
structure NoOpCache where
  cache : GoString → Option Nat
  order : List Nat
  heap : Nat → cacheEntry
  next : Nat
  maxSize : Int
  currSize : Int

/-- The expression `int64(len(entry.key) + len(entry.value))`. -/
def entrySize (e : cacheEntry) : Int := ((e.key.length + e.value.length : Nat) : Int)

/-- An empty cache of capacity `maxSize`, built as `NewNoOpCache` builds it. -/
def emptyCache (maxSize : Int) : NoOpCache :=
  { cache := fun _ => none
    order := []
    heap := fun _ => { key := [], value := [] }
    next := 0
    maxSize := maxSize
    currSize := 0 }

/-- The constructor `NewNoOpCache`: empty, `maxSize: 1024 * 1024`. -/
def NewNoOpCache : NoOpCache := emptyCache (1024 * 1024)

/-- The call `l.MoveToFront(e)` of `container/list`: nothing happens when `e`
is not an element of `l`. -/
def listMoveToFront (order : List Nat) (e : Nat) : List Nat :=
  if e ∈ order then e :: order.erase e else order

/-- The call `l.Remove(e)` of `container/list`. -/
def listRemove (order : List Nat) (e : Nat) : List Nat := order.erase e

/-- The method `(*NoOpCache).Get`. -/
def NoOpCache.Get (c : NoOpCache) (key : GoString) : (GoString × Bool) × NoOpCache :=
  match c.cache key with
  | some elem =>
    let c1 := { c with order := listMoveToFront c.order elem }
    let entry := c1.heap elem
    ((entry.value, true), c1)
  | none => (([], false), c)

/-- The loop of `evictIfNeeded`, run for at most `fuel` iterations.  Every
iteration that does not leave the loop unlinks one element, so
`fuel = len(order)` lets the loop run to its own exit (`evictLoop_fuel`). -/
def NoOpCache.evictLoop : Nat → NoOpCache → NoOpCache
  | 0, c => c
  | fuel + 1, c =>
    if c.currSize > c.maxSize then
      match c.order.getLast? with
      | none => c
      | some elem =>
        let entry := c.heap elem
        let size := entrySize entry
        NoOpCache.evictLoop fuel
          { c with
            order := listRemove c.order elem
            cache := Function.update c.cache entry.key none
            currSize := c.currSize - size }
    else c

/-- The method `(*NoOpCache).evictIfNeeded`. -/
def NoOpCache.evictIfNeeded (c : NoOpCache) : NoOpCache :=
  NoOpCache.evictLoop c.order.length c

/-- The method `(*NoOpCache).Set`. -/
def NoOpCache.Set (c : NoOpCache) (key value : GoString) : NoOpCache :=
  let size : Int := ((key.length + value.length : Nat) : Int)
  if size > c.maxSize then c
  else
    match c.cache key with
    | some elem =>
      let entry := c.heap elem
      let oldSize := entrySize entry
      NoOpCache.evictIfNeeded
        { c with
          heap := Function.update c.heap elem { entry with value := value }
          currSize := c.currSize - oldSize + size
          order := listMoveToFront c.order elem }
    | none =>
      let elem := c.next
      NoOpCache.evictIfNeeded
        { c with
          heap := Function.update c.heap elem { key := key, value := value }
          next := c.next + 1
          order := elem :: c.order
          cache := Function.update c.cache key (some elem)
          currSize := c.currSize + size }

/-- The type `*NoOpCache` as an implementation of `Cache`. -/
def noOpCache : Cache NoOpCache :=
  { Get := NoOpCache.Get, Set := NoOpCache.Set }

/-- The states a cache created as `c0` reaches by `Get` and `Set` calls. -/
inductive ReachableFrom (c0 : NoOpCache) : NoOpCache → Prop where
  | init : ReachableFrom c0 c0
  | get (c : NoOpCache) (key : GoString) :
      ReachableFrom c0 c → ReachableFrom c0 (c.Get key).2
  | set (c : NoOpCache) (key value : GoString) :
      ReachableFrom c0 c → ReachableFrom c0 (c.Set key value)

/-! ## Vocabulary of the specification -/

/-- A byte is one of `0-9a-fA-F`. -/
def IsHexChar (c : Byte) : Prop :=
  (48 ≤ c.val ∧ c.val ≤ 57) ∨ (97 ≤ c.val ∧ c.val ≤ 102) ∨ (65 ≤ c.val ∧ c.val ≤ 70)

instance (c : Byte) : Decidable (IsHexChar c) := by
  unfold IsHexChar; infer_instance

/-- Insert hyphens after the 8th, 12th, 16th and 20th byte. -/
def format (h : GoString) : GoString :=
  h.take 8 ++ [dash] ++ (h.drop 8).take 4 ++ [dash] ++ (h.drop 12).take 4 ++ [dash]
    ++ (h.drop 16).take 4 ++ [dash] ++ h.drop 20

/-- The byte of `id` at offset `k` (`0` past the end). -/
def byteAt (id : GoString) (k : Nat) : Byte := id.getD k 0

/-- Offset `k` of a 36-byte input is as the canonical form requires:
`-` at 8, 13, 18, 23 and a hexadecimal digit elsewhere. -/
def ValidAt36 (id : GoString) (k : Nat) : Prop :=
  if k = 8 ∨ k = 13 ∨ k = 18 ∨ k = 23 then byteAt id k = dash else IsHexChar (byteAt id k)

instance (id : GoString) (k : Nat) : Decidable (ValidAt36 id k) := by
  unfold ValidAt36; infer_instance

/-- The undashed form: 32 bytes, all hexadecimal digits. -/
def IsUndashed (id : GoString) : Prop :=
  id.length = 32 ∧ ∀ c ∈ id, IsHexChar c

/-- The canonical form: 36 bytes, hyphens at 8, 13, 18, 23, hexadecimal digits elsewhere. -/
def IsCanonical (id : GoString) : Prop :=
  id.length = 36 ∧ ∀ k, k < 36 → ValidAt36 id k

instance (id : GoString) : Decidable (IsUndashed id) := by
  unfold IsUndashed; infer_instance

instance (id : GoString) : Decidable (IsCanonical id) := by
  unfold IsCanonical; infer_instance

/-- The identifier `a1b2c3d4e5f678901234567890abcdef`. -/
def sampleUndashed : GoString :=
  [97, 49, 98, 50, 99, 51, 100, 52, 101, 53, 102, 54, 55, 56, 57, 48,
   49, 50, 51, 52, 53, 54, 55, 56, 57, 48, 97, 98, 99, 100, 101, 102]

/-- The identifier `a1b2c3d4-e5f6-7890-1234-567890abcdef`. -/
def sampleDashed : GoString :=
  [97, 49, 98, 50, 99, 51, 100, 52, 45, 101, 53, 102, 54, 45, 55, 56, 57, 48, 45,
   49, 50, 51, 52, 45, 53, 54, 55, 56, 57, 48, 97, 98, 99, 100, 101, 102]

/-! ## Auxiliary definitions used in the proofs -/

/-- The bytes the 32-byte loop appends to the buffer while it scans `rest`,
when `hc` hexadecimal digits have been counted before. -/
def emit32 : Nat → List Byte → List Byte
  | _, [] => []
  | hc, c :: rest =>
    if isGroupEnd (hc + 1) then c :: dash :: emit32 (hc + 1) rest
    else c :: emit32 (hc + 1) rest


/-- The error the 36-byte loop reports for a violation at offset `m`. -/
def errAt36 (m : Nat) : ParseError :=
  if isDashPos m then .errMisplacedDash else .errInvalidChar


/-! ## Sample inputs -/

/-- The undashed sample with its last digit replaced by `g`. -/
def sampleInvalidChar : GoString :=
  [97, 49, 98, 50, 99, 51, 100, 52, 101, 53, 102, 54, 55, 56, 57, 48,
   49, 50, 51, 52, 53, 54, 55, 56, 57, 48, 97, 98, 99, 100, 101, 103]

/-- The dashed sample with the hyphen at offset 13 replaced by `0`. -/
def sampleMisplacedDash : GoString :=
  [97, 49, 98, 50, 99, 51, 100, 52, 45, 101, 53, 102, 54, 48, 55, 56, 57, 48, 45,
   49, 50, 51, 52, 45, 53, 54, 55, 56, 57, 48, 97, 98, 99, 100, 101, 102]

/-- The dashed sample with `0` in place of the hyphen at offset 8 and `g` at offset 35:
the string `a1b2c3d40e5f6-7890-1234-567890abcdeg`. -/
def sampleBothViolations : GoString :=
  [97, 49, 98, 50, 99, 51, 100, 52, 48, 101, 53, 102, 54, 45, 55, 56, 57, 48, 45,
   49, 50, 51, 52, 45, 53, 54, 55, 56, 57, 48, 97, 98, 99, 100, 101, 103]

/-- A valid 34-digit-and-hyphen body between two blanks: 36 bytes,
` 1b2c3d4-e5f6-7890-1234-567890abcde `. -/
def samplePadded : GoString :=
  [32, 49, 98, 50, 99, 51, 100, 52, 45, 101, 53, 102, 54, 45, 55, 56, 57, 48, 45,
   49, 50, 51, 52, 45, 53, 54, 55, 56, 57, 48, 97, 98, 99, 100, 101, 32]

/-! ## Consistency of a `NoOpCache` -/

/-- The sum of `len(key) + len(value)` over the entries linked in the list. -/
def NoOpCache.totalSize (c : NoOpCache) : Int :=
  (c.order.map fun p => entrySize (c.heap p)).sum

/-- Internal consistency of a `NoOpCache`: no element is linked twice, the
map sends a key to an element exactly when that element is linked and
carries the key, `currSize` is the sum of the linked entries, and every
linked address has been handed out. -/
structure NoOpCache.Consistent (c : NoOpCache) : Prop where
  nodup : c.order.Nodup
  index : ∀ k p, c.cache k = some p ↔ (p ∈ c.order ∧ (c.heap p).key = k)
  size : c.currSize = c.totalSize
  fresh : ∀ p, p ∈ c.order → p < c.next

/-! ## The stored entries and the states reached through `Parse` -/

/-- The entries stored in the cache, in recency order: most recently used first. -/
def NoOpCache.entries (c : NoOpCache) : List cacheEntry := c.order.map c.heap

/-- The sum of `len(key) + len(value)` over a list of entries. -/
def sizeSum (es : List cacheEntry) : Int := (es.map entrySize).sum

/-- The states of a cache created by `NewNoOpCache` and accessed only through
`IDParser.Parse`, by any number of parsers sharing it.  Each `Parse` call
makes one `Get` call, for its input, and on a miss with a successful
validation one `Set` call, for its input and the result of `parse`; the
calls of different parsers may interleave, each being atomic under `mu`. -/
inductive ParseReachable : NoOpCache → Prop where
  | init : ParseReachable NewNoOpCache
  | get (c : NoOpCache) (input : GoString) :
      ParseReachable c → ParseReachable (c.Get input).2
  | set (c : NoOpCache) (input result : GoString) :
      ParseReachable c → parse input = .ok result → ParseReachable (c.Set input result)

/-- A cache whose capacity holds exactly two of the two-byte entries below. -/
def smallCache : NoOpCache := emptyCache 4

/-- The entry `a -> x`. -/
def entryA : cacheEntry := { key := [97], value := [120] }

/-- The entry `b -> y`. -/
def entryB : cacheEntry := { key := [98], value := [121] }

/-- The entry `c -> z`. -/
def entryC : cacheEntry := { key := [99], value := [122] }

/-- A cache implementation that reports a hit with the empty string for every key. -/
def alwaysHitCache : Cache Unit :=
  { Get := fun st _ => (([], true), st), Set := fun st _ _ => st }

/-! ## The lookup table -/

theorem hexTable_lookup (c : Byte) : hexTable[c.val]? = some (decide (c.val ∈ hexKeys)) := by
  have h : c.val < 256 := c.isLt
  simp [hexTable, List.getElem?_map, List.getElem?_range, h]

theorem mem_hexKeys_iff (c : Byte) : c.val ∈ hexKeys ↔ IsHexChar c := by
  simp only [hexKeys, IsHexChar, List.mem_cons, List.mem_singleton, List.not_mem_nil, or_false]
  omega

/-- The lookup `isHex` never leaves the table and decides membership in `0-9a-fA-F`. -/
theorem isHex_eq (c : Byte) : isHex c = .ok (decide (IsHexChar c)) := by
  unfold isHex
  rw [hexTable_lookup]
  simp only [mem_hexKeys_iff]

/-! ## The 32-byte loop -/

theorem set_append_length {α : Type} (out pad : List α) (p : α) (c : α) :
    (out ++ p :: pad).set out.length c = (out ++ [c]) ++ pad := by
  induction out with
  | nil => simp
  | cons a out ih => simp [ih]

theorem getElem?_append_length {α : Type} (pre rest : List α) (c : α) :
    (pre ++ c :: rest)[pre.length]? = some c := by
  rw [List.getElem?_append_right (le_refl _)]
  simp


theorem emit32_length_pos (hc : Nat) (c : Byte) (rest : List Byte) :
    0 < (emit32 hc (c :: rest)).length := by
  unfold emit32; split <;> simp

theorem emit32_length_ge (rest : List Byte) : ∀ hc, rest.length ≤ (emit32 hc rest).length := by
  induction rest with
  | nil => intro hc; simp [emit32]
  | cons c rest ih =>
    intro hc
    have := ih (hc + 1)
    unfold emit32; split <;> simp <;> omega

theorem body32_hex (id : GoString) (i : Nat) (s : ScanState) (c : Byte)
    (hread : id[i]? = some c) (hc : IsHexChar c) :
    body32 id i s =
      match writeBuf s c with
      | .crash => .crash
      | .err e => .err e
      | .ok s1 =>
        if isGroupEnd (s1.hexCount + 1) then
          match writeBuf { s1 with hexCount := s1.hexCount + 1 } dash with
          | .crash => .crash
          | .err e => .err e
          | .ok s3 => .ok { s3 with dashCount := s3.dashCount + 1 }
        else .ok { s1 with hexCount := s1.hexCount + 1 } := by
  unfold body32
  rw [hread]
  simp only [isHex_eq, hc, decide_True]

theorem body32_nonhex (id : GoString) (i : Nat) (s : ScanState) (c : Byte)
    (hread : id[i]? = some c) (hc : ¬ IsHexChar c) :
    body32 id i s = .err .errInvalidChar := by
  unfold body32
  rw [hread]
  simp only [isHex_eq, hc, decide_False]

theorem writeBuf_append (s : ScanState) (out pad : List Byte) (p c : Byte)
    (hbuf : s.buf = out ++ p :: pad) (hj : s.j = out.length) :
    writeBuf s c = .ok { s with buf := (out ++ [c]) ++ pad, j := out.length + 1 } := by
  unfold writeBuf
  have : s.j < s.buf.length := by rw [hbuf, hj]; simp
  rw [if_pos this, hbuf, hj, set_append_length]

/-- Invariant of the 32-byte loop.  With `pre` scanned, `out` written and `pad`
the unwritten rest of the buffer, the loop over `rest` ends in
`errInvalidChar` at the first non-hexadecimal byte and otherwise appends
`emit32 hexCount rest` to `out`. -/
theorem loop32 (id : GoString) (rest : List Byte) :
    ∀ (pre : List Byte) (s : ScanState) (out pad : List Byte),
      id = pre ++ rest → s.buf = out ++ pad → s.j = out.length →
      (emit32 s.hexCount rest).length ≤ pad.length →
      forLoop (body32 id) rest.length pre.length s =
        if ∀ c ∈ rest, IsHexChar c then
          .ok { buf := out ++ emit32 s.hexCount rest ++ pad.drop (emit32 s.hexCount rest).length
                j := out.length + (emit32 s.hexCount rest).length
                hexCount := s.hexCount + rest.length
                dashCount := s.dashCount + ((emit32 s.hexCount rest).length - rest.length) }
        else .err .errInvalidChar := by
  induction rest with
  | nil =>
    intro pre s out pad _ hbuf hj _
    cases s
    simp_all [forLoop, emit32]
  | cons c rest ih =>
    intro pre s out pad hid hbuf hj hcap
    have hread : id[pre.length]? = some c := by rw [hid]; exact getElem?_append_length pre rest c
    have hid1 : id = (pre ++ [c]) ++ rest := by rw [hid]; simp
    simp only [List.length_cons, forLoop]
    by_cases hc : IsHexChar c
    · rw [body32_hex id _ s c hread hc]
      have hpos := emit32_length_pos s.hexCount c rest
      have hall : (∀ x ∈ c :: rest, IsHexChar x) ↔ ∀ x ∈ rest, IsHexChar x := by simp [hc]
      obtain _ | ⟨p, pad⟩ := pad
      · simp only [List.length_nil] at hcap; omega
      rw [writeBuf_append s out pad p c hbuf hj]
      simp only
      by_cases hg : isGroupEnd (s.hexCount + 1) = true
      · rw [if_pos hg]
        have hem : emit32 s.hexCount (c :: rest) = c :: dash :: emit32 (s.hexCount + 1) rest := by
          simp [emit32, hg]
        rw [hem] at hcap ⊢
        obtain _ | ⟨p2, pad⟩ := pad
        · simp at hcap
        rw [writeBuf_append _ (out ++ [c]) pad p2 dash rfl (by simp)]
        simp only
        have h := ih (pre ++ [c])
          { buf := out ++ [c] ++ [dash] ++ pad, j := out.length + 1 + 1,
            hexCount := s.hexCount + 1, dashCount := s.dashCount + 1 }
          (out ++ [c] ++ [dash]) pad hid1 rfl (by simp) (by simpa using hcap)
        simp only [List.length_append, List.length_singleton] at h ⊢
        rw [h]
        simp only [hall]
        have hge := emit32_length_ge rest (s.hexCount + 1)
        clear hpos hcap h
        split
        · simp only [List.length_cons, List.drop_succ_cons, Outcome.ok.injEq, ScanState.mk.injEq]
          refine ⟨by simp, by omega, by omega, by omega⟩
        · rfl
      · rw [if_neg hg]
        have hem : emit32 s.hexCount (c :: rest) = c :: emit32 (s.hexCount + 1) rest := by
          simp [emit32, hg]
        rw [hem] at hcap ⊢
        have h := ih (pre ++ [c])
          { buf := out ++ [c] ++ pad, j := out.length + 1,
            hexCount := s.hexCount + 1, dashCount := s.dashCount }
          (out ++ [c]) pad hid1 rfl (by simp) (by simpa using hcap)
        simp only [List.length_append, List.length_singleton] at h ⊢
        rw [h]
        simp only [hall]
        have hge := emit32_length_ge rest (s.hexCount + 1)
        clear hpos hcap h
        split
        · simp only [List.length_cons, List.drop_succ_cons, Outcome.ok.injEq, ScanState.mk.injEq]
          refine ⟨by simp, by omega, by omega, by omega⟩
        · rfl
    · rw [body32_nonhex id _ s c hread hc]
      have : ¬ ∀ x ∈ c :: rest, IsHexChar x := fun h => hc (h c (List.mem_cons_self _ _))
      rw [if_neg this]

theorem exists_cons_of_length_succ {α : Type} {l : List α} {n : Nat} (h : l.length = n + 1) :
    ∃ a t, l = a :: t ∧ t.length = n := by
  cases l with
  | nil => simp at h
  | cons a t => exact ⟨a, t, rfl, by simpa using h⟩

theorem emit32_eq_format (id : GoString) (h0 : id.length = 32) : emit32 0 id = format id := by
  obtain ⟨a0, id, rfl, h1⟩ := exists_cons_of_length_succ h0
  obtain ⟨a1, id, rfl, h2⟩ := exists_cons_of_length_succ h1
  obtain ⟨a2, id, rfl, h3⟩ := exists_cons_of_length_succ h2
  obtain ⟨a3, id, rfl, h4⟩ := exists_cons_of_length_succ h3
  obtain ⟨a4, id, rfl, h5⟩ := exists_cons_of_length_succ h4
  obtain ⟨a5, id, rfl, h6⟩ := exists_cons_of_length_succ h5
  obtain ⟨a6, id, rfl, h7⟩ := exists_cons_of_length_succ h6
  obtain ⟨a7, id, rfl, h8⟩ := exists_cons_of_length_succ h7
  obtain ⟨a8, id, rfl, h9⟩ := exists_cons_of_length_succ h8
  obtain ⟨a9, id, rfl, h10⟩ := exists_cons_of_length_succ h9
  obtain ⟨a10, id, rfl, h11⟩ := exists_cons_of_length_succ h10
  obtain ⟨a11, id, rfl, h12⟩ := exists_cons_of_length_succ h11
  obtain ⟨a12, id, rfl, h13⟩ := exists_cons_of_length_succ h12
  obtain ⟨a13, id, rfl, h14⟩ := exists_cons_of_length_succ h13
  obtain ⟨a14, id, rfl, h15⟩ := exists_cons_of_length_succ h14
  obtain ⟨a15, id, rfl, h16⟩ := exists_cons_of_length_succ h15
  obtain ⟨a16, id, rfl, h17⟩ := exists_cons_of_length_succ h16
  obtain ⟨a17, id, rfl, h18⟩ := exists_cons_of_length_succ h17
  obtain ⟨a18, id, rfl, h19⟩ := exists_cons_of_length_succ h18
  obtain ⟨a19, id, rfl, h20⟩ := exists_cons_of_length_succ h19
  obtain ⟨a20, id, rfl, h21⟩ := exists_cons_of_length_succ h20
  obtain ⟨a21, id, rfl, h22⟩ := exists_cons_of_length_succ h21
  obtain ⟨a22, id, rfl, h23⟩ := exists_cons_of_length_succ h22
  obtain ⟨a23, id, rfl, h24⟩ := exists_cons_of_length_succ h23
  obtain ⟨a24, id, rfl, h25⟩ := exists_cons_of_length_succ h24
  obtain ⟨a25, id, rfl, h26⟩ := exists_cons_of_length_succ h25
  obtain ⟨a26, id, rfl, h27⟩ := exists_cons_of_length_succ h26
  obtain ⟨a27, id, rfl, h28⟩ := exists_cons_of_length_succ h27
  obtain ⟨a28, id, rfl, h29⟩ := exists_cons_of_length_succ h28
  obtain ⟨a29, id, rfl, h30⟩ := exists_cons_of_length_succ h29
  obtain ⟨a30, id, rfl, h31⟩ := exists_cons_of_length_succ h30
  obtain ⟨a31, id, rfl, h32⟩ := exists_cons_of_length_succ h31
  obtain rfl := List.length_eq_zero.mp h32
  rfl

theorem format_length (id : GoString) (h : id.length = 32) : (format id).length = 36 := by
  simp [format, h]

/-- The 32-byte loop, run from the initial state. -/
theorem scan32_eq (id : GoString) (h : id.length = 32) :
    forLoop (body32 id) 32 0 initState =
      if ∀ c ∈ id, IsHexChar c then
        .ok { buf := format id, j := 36, hexCount := 32, dashCount := 4 }
      else .err .errInvalidChar := by
  have hl := format_length id h
  have hem := emit32_eq_format id h
  have := loop32 id id [] initState [] (List.replicate 36 0) rfl rfl rfl
    (by show (emit32 0 id).length ≤ _; rw [hem, hl]; simp)
  rw [h] at this
  simp only [List.length_nil] at this
  rw [this]
  have h0 : initState.hexCount = 0 := rfl
  have h1 : initState.dashCount = 0 := rfl
  rw [h0, h1, hem, hl]
  simp

/-! ## The 36-byte loop -/

theorem read_byteAt (id : GoString) (i : Nat) (h : i < id.length) :
    id[i]? = some (byteAt id i) := by
  unfold byteAt
  rw [List.getD_eq_getElem?_getD, List.getElem?_eq_getElem h]
  rfl

theorem isDashPos_iff (i : Nat) : isDashPos i = true ↔ (i = 8 ∨ i = 13 ∨ i = 18 ∨ i = 23) := by
  simp [isDashPos, or_assoc]

theorem body36_valid (id : GoString) (i : Nat) (s : ScanState) (h : i < id.length)
    (hv : ValidAt36 id i) :
    body36 id i s =
      match writeBuf s (byteAt id i) with
      | .crash => .crash
      | .err e => .err e
      | .ok s1 =>
        if isDashPos i then .ok { s1 with dashCount := s1.dashCount + 1 }
        else .ok { s1 with hexCount := s1.hexCount + 1 } := by
  unfold body36
  rw [read_byteAt id i h]
  unfold ValidAt36 at hv
  by_cases hd : isDashPos i = true
  · rw [if_pos ((isDashPos_iff i).mp hd)] at hv
    simp only [hd, if_true, hv, ne_eq, not_true_eq_false, if_false]
  · rw [if_neg (fun h => hd ((isDashPos_iff i).mpr h))] at hv
    simp only [hd, if_false, isHex_eq, hv, decide_True]
    cases writeBuf s (byteAt id i) <;> simp

theorem body36_invalid (id : GoString) (i : Nat) (s : ScanState) (h : i < id.length)
    (hv : ¬ ValidAt36 id i) :
    body36 id i s = .err (errAt36 i) := by
  unfold body36 errAt36
  rw [read_byteAt id i h]
  unfold ValidAt36 at hv
  by_cases hd : isDashPos i = true
  · rw [if_pos ((isDashPos_iff i).mp hd)] at hv
    simp only [hd, if_true, ne_eq, hv, not_false_eq_true]
  · rw [if_neg (fun h => hd ((isDashPos_iff i).mpr h))] at hv
    simp only [hd, if_false, isHex_eq, hv, decide_False]
    simp

theorem writeBuf_ok (s : ScanState) (c : Byte) (h : s.j < s.buf.length) :
    writeBuf s c = .ok { s with buf := s.buf.set s.j c, j := s.j + 1 } := by
  unfold writeBuf
  rw [if_pos h]

theorem drop_eq_byteAt_cons (id : GoString) (i : Nat) (h : i < id.length) :
    id.drop i = byteAt id i :: id.drop (i + 1) := by
  have := read_byteAt id i h
  rw [List.getElem?_eq_getElem h] at this
  rw [List.drop_eq_getElem_cons h]
  congr 1
  exact Option.some.inj this

theorem take_set_succ (buf : List Byte) (i : Nat) (c : Byte) (h : i < buf.length) :
    (buf.set i c).take (i + 1) = buf.take i ++ [c] := by
  induction buf generalizing i with
  | nil => simp at h
  | cons a buf ih =>
    cases i with
    | zero => simp
    | succ i =>
      simp only [List.length_cons, Nat.add_lt_add_iff_right] at h
      simp [ih i h]

/-- Invariant of the 36-byte loop on input that is valid from offset `i` on:
the buffer receives the bytes of `id` at their own offsets. -/
theorem loop36_ok (id : GoString) (hlen : id.length = 36) :
    ∀ (n i : Nat) (s : ScanState), i + n = 36 → s.j = i → s.buf.length = 36 →
      (∀ k, i ≤ k → k < 36 → ValidAt36 id k) →
      forLoop (body36 id) n i s =
        .ok { buf := s.buf.take i ++ id.drop i
              j := 36
              hexCount := s.hexCount + (List.range' i n).countP (fun k => !isDashPos k)
              dashCount := s.dashCount + (List.range' i n).countP isDashPos } := by
  intro n
  induction n with
  | zero =>
    intro i s hi hj hb _
    have : i = 36 := by omega
    subst this
    cases s
    simp_all [forLoop, List.take_of_length_le, List.drop_of_length_le]
  | succ n ih =>
    intro i s hi hj hb hv
    have hi36 : i < 36 := by omega
    simp only [forLoop]
    rw [body36_valid id i s (by omega) (hv i (le_refl _) hi36),
      writeBuf_ok s _ (by omega)]
    simp only [hj]
    by_cases hd : isDashPos i = true
    · simp only [hd, if_true]
      rw [ih (i + 1) _ (by omega) rfl (by simpa using hb) (fun k hk => hv k (by omega))]
      simp only [take_set_succ s.buf i _ (by omega), List.range'_succ, List.countP_cons, hd,
        Outcome.ok.injEq, ScanState.mk.injEq]
      refine ⟨?_, trivial, by simp, by simp; omega⟩
      rw [drop_eq_byteAt_cons id i (by omega)]; simp
    · have hd' : isDashPos i = false := by simpa using hd
      simp only [hd', Bool.false_eq_true, if_false]
      rw [ih (i + 1) _ (by omega) rfl (by simpa using hb) (fun k hk => hv k (by omega))]
      simp only [take_set_succ s.buf i _ (by omega), List.range'_succ, List.countP_cons, hd',
        Outcome.ok.injEq, ScanState.mk.injEq]
      refine ⟨?_, trivial, by simp; omega, by simp⟩
      rw [drop_eq_byteAt_cons id i (by omega)]; simp

/-- The 36-byte loop stops at the first offending offset `m` with `errAt36 m`. -/
theorem loop36_err (id : GoString) (hlen : id.length = 36) (m : Nat) (hm : m < 36)
    (hbad : ¬ ValidAt36 id m) :
    ∀ (n i : Nat) (s : ScanState), i + n = 36 → s.j = i → s.buf.length = 36 → i ≤ m →
      (∀ k, i ≤ k → k < m → ValidAt36 id k) →
      forLoop (body36 id) n i s = .err (errAt36 m) := by
  intro n
  induction n with
  | zero => intro i s hi _ _ him _; omega
  | succ n ih =>
    intro i s hi hj hb him hv
    simp only [forLoop]
    by_cases hmi : i = m
    · subst hmi
      rw [body36_invalid id i s (by omega) hbad]
    · have hlt : i < m := by omega
      rw [body36_valid id i s (by omega) (hv i (le_refl _) hlt), writeBuf_ok s _ (by omega)]
      by_cases hd : isDashPos i = true
      · simp only [hd, if_true]
        exact ih (i + 1) _ (by omega) (by simp [hj]) (by simpa using hb) (by omega)
          (fun k hk => hv k (by omega))
      · have hd' : isDashPos i = false := by simpa using hd
        simp only [hd', Bool.false_eq_true, if_false]
        exact ih (i + 1) _ (by omega) (by simp [hj]) (by simpa using hb) (by omega)
          (fun k hk => hv k (by omega))

/-! ## The function `parse` -/

theorem scan36_ok (id : GoString) (hlen : id.length = 36)
    (hv : ∀ k, k < 36 → ValidAt36 id k) :
    forLoop (body36 id) 36 0 initState =
      .ok { buf := id, j := 36, hexCount := 32, dashCount := 4 } := by
  rw [loop36_ok id hlen 36 0 initState rfl rfl rfl (fun k _ hk => hv k hk)]
  have h1 : (List.range' 0 36).countP (fun k => !isDashPos k) = 32 := by decide
  have h2 : (List.range' 0 36).countP isDashPos = 4 := by decide
  rw [h1, h2]
  simp [initState]

theorem scan36_err (id : GoString) (hlen : id.length = 36) (m : Nat) (hm : m < 36)
    (hbad : ¬ ValidAt36 id m) (hfirst : ∀ k, k < m → ValidAt36 id k) :
    forLoop (body36 id) 36 0 initState = .err (errAt36 m) :=
  loop36_err id hlen m hm hbad 36 0 initState rfl rfl rfl (Nat.zero_le _)
    (fun k _ hk => hfirst k hk)

theorem parse_of_length_32 (id : GoString) (hlen : id.length = 32) :
    parse id = if ∀ c ∈ id, IsHexChar c then .ok (format id) else .err .errInvalidChar := by
  unfold parse scan
  rw [if_neg (by omega), if_pos hlen, scan32_eq id hlen]
  by_cases hall : ∀ c ∈ id, IsHexChar c
  · rw [if_pos hall, if_pos hall]
    simp
  · rw [if_neg hall, if_neg hall]

theorem parse_canonical (id : GoString) (h : IsCanonical id) : parse id = .ok id := by
  unfold parse scan
  rw [if_neg (by have := h.1; omega), if_neg (by have := h.1; omega), if_pos h.1,
    scan36_ok id h.1 h.2]
  simp

theorem parse_36_err (id : GoString) (hlen : id.length = 36) (m : Nat) (hm : m < 36)
    (hbad : ¬ ValidAt36 id m) (hfirst : ∀ k, k < m → ValidAt36 id k) :
    parse id = .err (errAt36 m) := by
  unfold parse scan
  rw [if_neg (by omega), if_neg (by omega), if_pos hlen, scan36_err id hlen m hm hbad hfirst]

theorem parse_bad_length (id : GoString) (h : id.length ≠ 32 ∧ id.length ≠ 36) :
    parse id = .err .errInvalidLength := by
  unfold parse
  rw [if_pos h]

theorem exists_first_invalid (id : GoString) (h : ¬ ∀ k, k < 36 → ValidAt36 id k) :
    ∃ m, m < 36 ∧ ¬ ValidAt36 id m ∧ ∀ k, k < m → ValidAt36 id k := by
  have hex : ∃ m, m < 36 ∧ ¬ ValidAt36 id m := by
    by_contra hne
    exact h (fun k hk => by
      by_contra hk'
      exact hne ⟨k, hk, hk'⟩)
  refine ⟨Nat.find hex, (Nat.find_spec hex).1, (Nat.find_spec hex).2, ?_⟩
  intro k hk
  by_contra hk'
  exact Nat.find_min hex hk ⟨lt_trans hk (Nat.find_spec hex).1, hk'⟩

theorem format_canonical (id : GoString) (h : IsUndashed id) : IsCanonical (format id) := by
  obtain ⟨h0, hall⟩ := h
  refine ⟨format_length id h0, ?_⟩
  obtain ⟨a0, id, rfl, h1⟩ := exists_cons_of_length_succ h0
  obtain ⟨a1, id, rfl, h2⟩ := exists_cons_of_length_succ h1
  obtain ⟨a2, id, rfl, h3⟩ := exists_cons_of_length_succ h2
  obtain ⟨a3, id, rfl, h4⟩ := exists_cons_of_length_succ h3
  obtain ⟨a4, id, rfl, h5⟩ := exists_cons_of_length_succ h4
  obtain ⟨a5, id, rfl, h6⟩ := exists_cons_of_length_succ h5
  obtain ⟨a6, id, rfl, h7⟩ := exists_cons_of_length_succ h6
  obtain ⟨a7, id, rfl, h8⟩ := exists_cons_of_length_succ h7
  obtain ⟨a8, id, rfl, h9⟩ := exists_cons_of_length_succ h8
  obtain ⟨a9, id, rfl, h10⟩ := exists_cons_of_length_succ h9
  obtain ⟨a10, id, rfl, h11⟩ := exists_cons_of_length_succ h10
  obtain ⟨a11, id, rfl, h12⟩ := exists_cons_of_length_succ h11
  obtain ⟨a12, id, rfl, h13⟩ := exists_cons_of_length_succ h12
  obtain ⟨a13, id, rfl, h14⟩ := exists_cons_of_length_succ h13
  obtain ⟨a14, id, rfl, h15⟩ := exists_cons_of_length_succ h14
  obtain ⟨a15, id, rfl, h16⟩ := exists_cons_of_length_succ h15
  obtain ⟨a16, id, rfl, h17⟩ := exists_cons_of_length_succ h16
  obtain ⟨a17, id, rfl, h18⟩ := exists_cons_of_length_succ h17
  obtain ⟨a18, id, rfl, h19⟩ := exists_cons_of_length_succ h18
  obtain ⟨a19, id, rfl, h20⟩ := exists_cons_of_length_succ h19
  obtain ⟨a20, id, rfl, h21⟩ := exists_cons_of_length_succ h20
  obtain ⟨a21, id, rfl, h22⟩ := exists_cons_of_length_succ h21
  obtain ⟨a22, id, rfl, h23⟩ := exists_cons_of_length_succ h22
  obtain ⟨a23, id, rfl, h24⟩ := exists_cons_of_length_succ h23
  obtain ⟨a24, id, rfl, h25⟩ := exists_cons_of_length_succ h24
  obtain ⟨a25, id, rfl, h26⟩ := exists_cons_of_length_succ h25
  obtain ⟨a26, id, rfl, h27⟩ := exists_cons_of_length_succ h26
  obtain ⟨a27, id, rfl, h28⟩ := exists_cons_of_length_succ h27
  obtain ⟨a28, id, rfl, h29⟩ := exists_cons_of_length_succ h28
  obtain ⟨a29, id, rfl, h30⟩ := exists_cons_of_length_succ h29
  obtain ⟨a30, id, rfl, h31⟩ := exists_cons_of_length_succ h30
  obtain ⟨a31, id, rfl, h32⟩ := exists_cons_of_length_succ h31
  obtain rfl := List.length_eq_zero.mp h32
  simp only [List.forall_mem_cons, List.not_mem_nil, false_imp_iff, implies_true, and_true] at hall
  intro k hk
  interval_cases k <;> simp [ValidAt36, byteAt, format, hall]


theorem byteAt_mem (id : GoString) (i : Nat) (h : i < id.length) : byteAt id i ∈ id := by
  have := read_byteAt id i h
  rw [List.getElem?_eq_getElem h] at this
  rw [← Option.some.inj this]
  exact List.getElem_mem ..

theorem mem_iff_byteAt (id : GoString) (c : Byte) :
    c ∈ id ↔ ∃ i, i < id.length ∧ byteAt id i = c := by
  constructor
  · intro hc
    obtain ⟨i, hi, rfl⟩ := List.getElem_of_mem hc
    refine ⟨i, hi, ?_⟩
    have := read_byteAt id i hi
    rw [List.getElem?_eq_getElem hi] at this
    exact (Option.some.inj this).symm
  · rintro ⟨i, hi, rfl⟩
    exact byteAt_mem id i hi

theorem Parse_of_miss (c : NoOpCache) (x : GoString) (h : c.cache x = none) :
    (IDParser.Parse noOpCache c x).1 = parse x := by
  unfold IDParser.Parse noOpCache NoOpCache.Get
  simp only [h]
  cases parse x <;> rfl

theorem Parse_fresh (x : GoString) :
    (IDParser.Parse noOpCache NewNoOpCache x).1 = parse x :=
  Parse_of_miss _ _ rfl

theorem errAt36_ne_struct (m : Nat) : errAt36 m ≠ .errInvalidStruct := by
  unfold errAt36; split <;> simp

/-- The three outcomes of `parse`: undashed input, canonical input, or an error
other than `errInvalidStruct`. -/
theorem parse_cases (id : GoString) :
    (IsUndashed id ∧ parse id = .ok (format id)) ∨
    (IsCanonical id ∧ parse id = .ok id) ∨
    (¬ IsUndashed id ∧ ¬ IsCanonical id ∧
      ∃ e, parse id = .err e ∧ e ≠ .errInvalidStruct) := by
  by_cases h32 : id.length = 32
  · have hp := parse_of_length_32 id h32
    have hnc : ¬ IsCanonical id := fun h => by have := h.1; omega
    by_cases hall : ∀ c ∈ id, IsHexChar c
    · rw [if_pos hall] at hp
      exact Or.inl ⟨⟨h32, hall⟩, hp⟩
    · rw [if_neg hall] at hp
      exact Or.inr (Or.inr ⟨fun h => hall h.2, hnc, _, hp, by simp⟩)
  · have hnu : ¬ IsUndashed id := fun h => h32 h.1
    by_cases h36 : id.length = 36
    · by_cases hv : ∀ k, k < 36 → ValidAt36 id k
      · exact Or.inr (Or.inl ⟨⟨h36, hv⟩, parse_canonical id ⟨h36, hv⟩⟩)
      · obtain ⟨m, hm, hbad, hfirst⟩ := exists_first_invalid id hv
        exact Or.inr (Or.inr ⟨hnu, fun h => hv h.2, _, parse_36_err id h36 m hm hbad hfirst,
          errAt36_ne_struct m⟩)
    · exact Or.inr (Or.inr ⟨hnu, fun h => h36 h.1, _, parse_bad_length id ⟨h32, h36⟩, by simp⟩)

theorem errAt36_eq (m : Nat) :
    errAt36 m = if m = 8 ∨ m = 13 ∨ m = 18 ∨ m = 23 then .errMisplacedDash
      else .errInvalidChar := by
  unfold errAt36
  by_cases h : isDashPos m = true
  · rw [if_pos h, if_pos ((isDashPos_iff m).mp h)]
  · rw [if_neg h, if_neg (fun h2 => h ((isDashPos_iff m).mpr h2))]

theorem byteAt_take (id : GoString) (n k : Nat) (h : k < n) :
    byteAt (id.take n) k = byteAt id k := by
  unfold byteAt
  rw [List.getD_eq_getElem?_getD, List.getD_eq_getElem?_getD, List.getElem?_take_of_lt h]

theorem validAt36_congr (id id2 : GoString) (n : Nat) (h : id2.take n = id.take n)
    (k : Nat) (hk : k < n) : ValidAt36 id2 k ↔ ValidAt36 id k := by
  have : byteAt id2 k = byteAt id k := by
    rw [← byteAt_take id2 n k hk, ← byteAt_take id n k hk, h]
  unfold ValidAt36
  rw [this]


/-! ## Consistency is preserved by `Get`, `Set` and eviction -/

theorem consistent_emptyCache (m : Int) : (emptyCache m).Consistent where
  nodup := List.nodup_nil
  index := by intro k p; simp [emptyCache]
  size := rfl
  fresh := by intro p hp; simp [emptyCache] at hp

theorem listMoveToFront_perm (order : List Nat) (e : Nat) :
    (listMoveToFront order e).Perm order := by
  unfold listMoveToFront
  split
  · rename_i h
    exact (List.perm_cons_erase h).symm
  · exact List.Perm.refl _

theorem consistent_of_perm (c : NoOpCache) (order : List Nat) (hc : c.Consistent)
    (hp : order.Perm c.order) : ({ c with order := order } : NoOpCache).Consistent where
  nodup := hp.nodup_iff.mpr hc.nodup
  index := by
    intro k p
    rw [hc.index k p]
    simp only [hp.mem_iff]
  size := by
    rw [hc.size]
    unfold NoOpCache.totalSize
    exact ((hp.map _).sum_eq).symm
  fresh := fun p h => hc.fresh p (hp.mem_iff.mp h)

theorem consistent_Get (c : NoOpCache) (key : GoString) (hc : c.Consistent) :
    (c.Get key).2.Consistent := by
  unfold NoOpCache.Get
  split
  · exact consistent_of_perm c _ hc (listMoveToFront_perm _ _)
  · exact hc

/-- One iteration of the eviction loop keeps the cache consistent. -/
theorem consistent_evictStep (c : NoOpCache) (q : Nat) (hc : c.Consistent) (hq : q ∈ c.order) :
    ({ c with
        order := listRemove c.order q
        cache := Function.update c.cache (c.heap q).key none
        currSize := c.currSize - entrySize (c.heap q) } : NoOpCache).Consistent where
  nodup := hc.nodup.erase q
  index := by
    intro k p
    simp only [listRemove, hc.nodup.mem_erase_iff]
    by_cases hk : k = (c.heap q).key
    · subst hk
      simp only [Function.update_same]
      constructor
      · intro h; cases h
      · rintro ⟨⟨hne, hp⟩, hkey⟩
        have h1 := (hc.index (c.heap q).key p).mpr ⟨hp, hkey⟩
        have h2 := (hc.index (c.heap q).key q).mpr ⟨hq, rfl⟩
        rw [h1] at h2
        exact absurd (Option.some.inj h2) hne
    · rw [Function.update_noteq hk, hc.index k p]
      constructor
      · rintro ⟨hp, hkey⟩
        refine ⟨⟨?_, hp⟩, hkey⟩
        rintro rfl
        exact hk hkey.symm
      · rintro ⟨⟨_, hp⟩, hkey⟩
        exact ⟨hp, hkey⟩
  size := by
    show c.currSize - entrySize (c.heap q) =
      ((c.order.erase q).map fun p => entrySize (c.heap p)).sum
    have : entrySize (c.heap q) + ((c.order.erase q).map fun p => entrySize (c.heap p)).sum
        = (c.order.map fun p => entrySize (c.heap p)).sum :=
      List.sum_map_erase (fun p => entrySize (c.heap p)) hq
    rw [hc.size]
    unfold NoOpCache.totalSize
    omega
  fresh := fun p h => hc.fresh p (List.mem_of_mem_erase h)

theorem consistent_evictLoop (n : Nat) : ∀ c : NoOpCache, c.Consistent →
    (NoOpCache.evictLoop n c).Consistent := by
  induction n with
  | zero => intro c hc; exact hc
  | succ n ih =>
    intro c hc
    unfold NoOpCache.evictLoop
    split
    · split
      · exact hc
      · rename_i q hq
        exact ih _ (consistent_evictStep c q hc (List.mem_of_getLast?_eq_some hq))
    · exact hc

/-- The state `Set` builds for a key already stored is consistent. -/
theorem consistent_update (c : NoOpCache) (key value : GoString) (p : Nat)
    (hc : c.Consistent) (hp : c.cache key = some p) :
    ({ c with
        heap := Function.update c.heap p { c.heap p with value := value }
        currSize := c.currSize - entrySize (c.heap p) + ((key.length + value.length : Nat) : Int)
        order := listMoveToFront c.order p } : NoOpCache).Consistent := by
  obtain ⟨hmem, hkey⟩ := (hc.index key p).mp hp
  have hperm := listMoveToFront_perm c.order p
  have hkeys : ∀ q, (Function.update c.heap p { c.heap p with value := value } q).key
      = (c.heap q).key := by
    intro q
    by_cases hq : q = p
    · subst hq; simp
    · rw [Function.update_noteq hq]
  refine ⟨hperm.nodup_iff.mpr hc.nodup, ?_, ?_, fun q h => hc.fresh q (hperm.mem_iff.mp h)⟩
  · intro k q
    show c.cache k = some q ↔ _
    rw [hc.index k q]
    simp only [hperm.mem_iff, hkeys]
  · show c.currSize - entrySize (c.heap p) + ((key.length + value.length : Nat) : Int)
      = ((listMoveToFront c.order p).map fun q =>
      entrySize (Function.update c.heap p { c.heap p with value := value } q)).sum
    rw [(hperm.map _).sum_eq, hc.size]
    unfold NoOpCache.totalSize
    have h1 : entrySize (c.heap p) + ((c.order.erase p).map fun q => entrySize (c.heap q)).sum
        = (c.order.map fun q => entrySize (c.heap q)).sum :=
      List.sum_map_erase (fun q => entrySize (c.heap q)) hmem
    have h2 : entrySize (Function.update c.heap p { c.heap p with value := value } p)
        + ((c.order.erase p).map fun q =>
            entrySize (Function.update c.heap p { c.heap p with value := value } q)).sum
        = (c.order.map fun q =>
            entrySize (Function.update c.heap p { c.heap p with value := value } q)).sum :=
      List.sum_map_erase
        (fun q => entrySize (Function.update c.heap p { c.heap p with value := value } q)) hmem
    have h3 : ((c.order.erase p).map fun q =>
            entrySize (Function.update c.heap p { c.heap p with value := value } q))
        = ((c.order.erase p).map fun q => entrySize (c.heap q)) := by
      apply List.map_congr_left
      intro q hq
      have : q ≠ p := fun h => hc.nodup.not_mem_erase (h ▸ hq)
      rw [Function.update_noteq this]
    have h4 : entrySize (Function.update c.heap p { c.heap p with value := value } p)
        = ((key.length + value.length : Nat) : Int) := by
      simp [entrySize, hkey]
    rw [h3, h4] at h2
    omega

/-- The state `Set` builds for a new key is consistent. -/
theorem consistent_insert (c : NoOpCache) (key value : GoString)
    (hc : c.Consistent) (hp : c.cache key = none) :
    ({ c with
        heap := Function.update c.heap c.next { key := key, value := value }
        next := c.next + 1
        order := c.next :: c.order
        cache := Function.update c.cache key (some c.next)
        currSize := c.currSize + ((key.length + value.length : Nat) : Int) } :
      NoOpCache).Consistent := by
  have hfresh : c.next ∉ c.order := fun h => lt_irrefl _ (hc.fresh _ h)
  have hne : ∀ q, q ∈ c.order → q ≠ c.next := fun q hq h => hfresh (h ▸ hq)
  refine ⟨List.nodup_cons.mpr ⟨hfresh, hc.nodup⟩, ?_, ?_, ?_⟩
  · intro k q
    show Function.update c.cache key (some c.next) k = some q ↔
      q ∈ c.next :: c.order ∧
        (Function.update c.heap c.next { key := key, value := value } q).key = k
    by_cases hk : k = key
    · subst hk
      rw [Function.update_same]
      constructor
      · intro h
        cases h
        simp
      · rintro ⟨hq, hkey⟩
        rcases List.mem_cons.mp hq with rfl | hq
        · rfl
        · rw [Function.update_noteq (hne q hq)] at hkey
          have := (hc.index k q).mpr ⟨hq, hkey⟩
          rw [hp] at this
          cases this
    · rw [Function.update_noteq hk, hc.index k q]
      constructor
      · rintro ⟨hq, hkey⟩
        refine ⟨List.mem_cons_of_mem _ hq, ?_⟩
        rw [Function.update_noteq (hne q hq)]
        exact hkey
      · rintro ⟨hq, hkey⟩
        rcases List.mem_cons.mp hq with rfl | hq
        · rw [Function.update_same] at hkey
          exact absurd hkey.symm hk
        · rw [Function.update_noteq (hne q hq)] at hkey
          exact ⟨hq, hkey⟩
  · show c.currSize + _ = ((c.next :: c.order).map fun q =>
      entrySize (Function.update c.heap c.next { key := key, value := value } q)).sum
    have h3 : (c.order.map fun q =>
          entrySize (Function.update c.heap c.next { key := key, value := value } q))
        = (c.order.map fun q => entrySize (c.heap q)) := by
      apply List.map_congr_left
      intro q hq
      rw [Function.update_noteq (hne q hq)]
    rw [List.map_cons, List.sum_cons, h3, Function.update_same, hc.size]
    unfold NoOpCache.totalSize entrySize
    simp only
    omega
  · intro q hq
    show q < c.next + 1
    rcases List.mem_cons.mp hq with rfl | hq
    · omega
    · have := hc.fresh q hq
      omega

theorem consistent_Set (c : NoOpCache) (key value : GoString) (hc : c.Consistent) :
    (c.Set key value).Consistent := by
  unfold NoOpCache.Set
  simp only
  split
  · exact hc
  · split
    · rename_i p hp
      exact consistent_evictLoop _ _ (consistent_update c key value p hc hp)
    · rename_i hp
      exact consistent_evictLoop _ _ (consistent_insert c key value hc hp)

theorem maxSize_evictLoop (n : Nat) : ∀ c : NoOpCache,
    (NoOpCache.evictLoop n c).maxSize = c.maxSize := by
  induction n with
  | zero => intro c; rfl
  | succ n ih =>
    intro c
    unfold NoOpCache.evictLoop
    split
    · split
      · rfl
      · rw [ih]
    · rfl

theorem maxSize_Set (c : NoOpCache) (key value : GoString) :
    (c.Set key value).maxSize = c.maxSize := by
  unfold NoOpCache.Set NoOpCache.evictIfNeeded
  simp only
  split
  · rfl
  · split <;> rw [maxSize_evictLoop]

theorem maxSize_Get (c : NoOpCache) (key : GoString) :
    (c.Get key).2.maxSize = c.maxSize := by
  unfold NoOpCache.Get
  split <;> rfl

/-- Every state reached from a consistent cache is consistent and keeps `maxSize`. -/
theorem reachable_consistent (c0 c : NoOpCache) (h0 : c0.Consistent)
    (h : ReachableFrom c0 c) : c.Consistent ∧ c.maxSize = c0.maxSize := by
  induction h with
  | init => exact ⟨h0, rfl⟩
  | get c key _ ih => exact ⟨consistent_Get c key ih.1, by rw [maxSize_Get, ih.2]⟩
  | set c key value _ ih => exact ⟨consistent_Set c key value ih.1, by rw [maxSize_Set, ih.2]⟩

/-- Eviction never removes the front entry when that entry alone fits. -/
theorem evictLoop_keeps_front (n : Nat) : ∀ (c : NoOpCache) (p : Nat) (rest : List Nat),
    c.Consistent → c.order = p :: rest → entrySize (c.heap p) ≤ c.maxSize →
    (NoOpCache.evictLoop n c).cache (c.heap p).key = some p ∧
      (NoOpCache.evictLoop n c).heap = c.heap ∧
      ∃ rest2, (NoOpCache.evictLoop n c).order = p :: rest2 := by
  induction n with
  | zero =>
    intro c p rest hc ho _
    exact ⟨(hc.index _ p).mpr ⟨by rw [ho]; exact List.mem_cons_self _ _, rfl⟩, rfl, rest, ho⟩
  | succ n ih =>
    intro c p rest hc ho hsz
    have hbase : c.cache (c.heap p).key = some p :=
      (hc.index _ p).mpr ⟨by rw [ho]; exact List.mem_cons_self _ _, rfl⟩
    unfold NoOpCache.evictLoop
    split
    · rename_i hgt
      split
      · exact ⟨hbase, rfl, rest, ho⟩
      · rename_i q hq
        have hqmem : q ∈ c.order := List.mem_of_getLast?_eq_some hq
        have hqp : q ≠ p := by
          rintro rfl
          cases rest with
          | nil =>
            have hs := hc.size
            unfold NoOpCache.totalSize at hs
            rw [ho] at hs
            simp only [List.map_cons, List.map_nil, List.sum_cons, List.sum_nil,
              add_zero] at hs
            omega
          | cons r rs =>
            rw [ho, List.getLast?_cons_cons] at hq
            have hmem : q ∈ r :: rs := List.mem_of_getLast?_eq_some hq
            have hnd := hc.nodup
            rw [ho] at hnd
            exact (List.nodup_cons.mp hnd).1 hmem
        have hstep := consistent_evictStep c q hc hqmem
        have ho2 : listRemove c.order q = p :: rest.erase q := by
          unfold listRemove
          rw [ho, List.erase_cons_tail]
          simpa using hqp.symm
        obtain ⟨h1, h2, h3⟩ := ih _ p (rest.erase q) hstep ho2 hsz
        exact ⟨h1, h2, h3⟩
    · exact ⟨hbase, rfl, rest, ho⟩

/-- After `Set(key, value)` of an entry that fits, `Get(key)` returns the value. -/
theorem Set_then_Get (c : NoOpCache) (key value : GoString) (hc : c.Consistent)
    (hsize : ((key.length + value.length : Nat) : Int) ≤ c.maxSize) :
    ((c.Set key value).Get key).1 = (value, true) := by
  have hkey : ∃ p, (c.Set key value).cache key = some p ∧
      (c.Set key value).heap p = { key := key, value := value } := by
    unfold NoOpCache.Set NoOpCache.evictIfNeeded
    simp only
    rw [if_neg (by omega)]
    split
    · rename_i p hp
      obtain ⟨hmem, hk⟩ := (hc.index key p).mp hp
      have hcons := consistent_update c key value p hc hp
      have ho : listMoveToFront c.order p = p :: c.order.erase p := by
        unfold listMoveToFront; rw [if_pos hmem]
      obtain ⟨h1, h2, _⟩ := evictLoop_keeps_front (listMoveToFront c.order p).length _ p _
        hcons ho (by simp [entrySize, hk]; omega)
      refine ⟨p, ?_, ?_⟩
      · simpa [hk] using h1
      · rw [h2]; simp [hk]
    · rename_i hp
      have hcons := consistent_insert c key value hc hp
      obtain ⟨h1, h2, _⟩ := evictLoop_keeps_front (c.next :: c.order).length _ c.next c.order
        hcons rfl (by simp [entrySize]; omega)
      refine ⟨c.next, ?_, ?_⟩
      · simpa using h1
      · rw [h2]; simp
  obtain ⟨p, hp1, hp2⟩ := hkey
  unfold NoOpCache.Get
  simp only [hp1, hp2]

/-- More fuel than `len(order)` changes nothing: the loop has left by then. -/
theorem evictLoop_fuel (n : Nat) : ∀ c : NoOpCache, c.order.length ≤ n →
    NoOpCache.evictLoop n c = NoOpCache.evictLoop c.order.length c := by
  induction n with
  | zero =>
    intro c h
    have : c.order.length = 0 := by omega
    rw [this]
  | succ n ih =>
    intro c h
    cases hl : c.order.length with
    | zero =>
      have hnil : c.order = [] := List.length_eq_zero.mp hl
      unfold NoOpCache.evictLoop
      split
      · simp [hnil]
      · rfl
    | succ m =>
      unfold NoOpCache.evictLoop
      split
      · split
        · rfl
        · rename_i q hq
          have hqmem : q ∈ c.order := List.mem_of_getLast?_eq_some hq
          have hlen : (listRemove c.order q).length = m := by
            unfold listRemove
            rw [List.length_erase_of_mem hqmem, hl]
            rfl
          have := ih { c with
            order := listRemove c.order q
            cache := Function.update c.cache (c.heap q).key none
            currSize := c.currSize - entrySize (c.heap q) } (by show (listRemove c.order q).length ≤ n; omega)
          rw [this]
          show NoOpCache.evictLoop (listRemove c.order q).length _ = _
          rw [hlen]
      · rfl


/-! ## `IDParser.Parse` over a `NoOpCache` -/

theorem parse_ok_length (x v : GoString) (h : parse x = .ok v) :
    (x.length = 32 ∨ x.length = 36) ∧ v.length = 36 := by
  rcases parse_cases x with ⟨hu, hp⟩ | ⟨hc, hp⟩ | ⟨_, _, e, he, _⟩
  · rw [hp] at h; cases h
    exact ⟨Or.inl hu.1, format_length x hu.1⟩
  · rw [hp] at h; cases h
    exact ⟨Or.inr hc.1, hc.1⟩
  · rw [he] at h; cases h

theorem Parse_of_hit (c : NoOpCache) (x : GoString) (p : Nat) (h : c.cache x = some p) :
    IDParser.Parse noOpCache c x = (.ok (c.heap p).value, (c.Get x).2) ∧
      (c.Get x).1 = ((c.heap p).value, true) := by
  unfold IDParser.Parse noOpCache NoOpCache.Get
  simp only [h]
  exact ⟨trivial, trivial⟩

theorem Parse_of_miss_ok (c : NoOpCache) (x v : GoString) (h : c.cache x = none)
    (hp : parse x = .ok v) :
    IDParser.Parse noOpCache c x = (.ok v, c.Set x v) := by
  unfold IDParser.Parse noOpCache NoOpCache.Get
  simp only [h, hp]

theorem Get_hit_cache (c : NoOpCache) (x v : GoString) (h : (c.Get x).1 = (v, true)) :
    ∃ p, c.cache x = some p ∧ (c.heap p).value = v := by
  unfold NoOpCache.Get at h
  split at h
  · rename_i p hp
    exact ⟨p, hp, by simpa using h⟩
  · simp at h


theorem Parse_err_state {σ : Type} (cache : Cache σ) (st : σ) (x : GoString) (e : ParseError)
    (h : (IDParser.Parse cache st x).1 = .err e) :
    (cache.Get st x).1.2 = false ∧ parse x = .err e ∧
      (IDParser.Parse cache st x).2 = (cache.Get st x).2 := by
  unfold IDParser.Parse at h ⊢
  rcases hg : cache.Get st x with ⟨⟨val, b⟩, st1⟩
  rw [hg] at h
  cases b with
  | true => simp at h
  | false =>
    simp only at h ⊢
    cases hp : parse x with
    | ok v => rw [hp] at h; simp at h
    | err e2 => rw [hp] at h; simp at h; subst h; simp
    | crash => rw [hp] at h; simp at h

theorem Get_miss_iff (c : NoOpCache) (x : GoString) :
    (c.Get x).1.2 = false ↔ c.cache x = none := by
  unfold NoOpCache.Get
  cases c.cache x <;> simp

theorem Get_of_miss (c : NoOpCache) (x : GoString) (h : c.cache x = none) :
    c.Get x = (([], false), c) := by
  unfold NoOpCache.Get
  simp only [h]


/-! ## Eviction and the stored entries -/

theorem erase_append_last (ys : List Nat) (q : Nat) (h : (ys ++ [q]).Nodup) :
    (ys ++ [q]).erase q = ys := by
  have hq : q ∉ ys := by
    intro hmem
    have := List.nodup_append.mp h
    exact this.2.2 hmem (List.mem_singleton_self q)
  rw [List.erase_append_right _ hq]
  simp

/-- The eviction loop, given enough fuel, keeps the longest front part of the
list whose entries fit in `maxSize`, and touches neither the heap nor the
address counter. -/
theorem evictLoop_spec (n : Nat) : ∀ c : NoOpCache, c.Consistent → 0 ≤ c.maxSize →
    c.order.length ≤ n →
    (NoOpCache.evictLoop n c).heap = c.heap ∧
    ∃ j, j ≤ c.order.length ∧ (NoOpCache.evictLoop n c).order = c.order.take j ∧
      ((c.order.take j).map fun p => entrySize (c.heap p)).sum ≤ c.maxSize ∧
      ∀ i, i ≤ c.order.length →
        ((c.order.take i).map fun p => entrySize (c.heap p)).sum ≤ c.maxSize → i ≤ j := by
  induction n with
  | zero =>
    intro c hc hmax hlen
    have hnil : c.order = [] := List.length_eq_zero.mp (by omega)
    refine ⟨rfl, 0, Nat.zero_le _, ?_, ?_, ?_⟩
    · show c.order = _
      rw [hnil]; rfl
    · simpa using hmax
    · intro i hi _
      rw [hnil] at hi
      simpa using hi
  | succ n ih =>
    intro c hc hmax hlen
    have htot : c.currSize = (c.order.map fun p => entrySize (c.heap p)).sum := hc.size
    unfold NoOpCache.evictLoop
    split
    · rename_i hgt
      split
      · rename_i hnone
        have hnil : c.order = [] := List.getLast?_eq_none_iff.mp hnone
        rw [hnil] at htot
        simp only [List.map_nil, List.sum_nil] at htot
        omega
      · rename_i q hq
        obtain ⟨ys, hys⟩ := List.getLast?_eq_some_iff.mp hq
        have hqmem : q ∈ c.order := List.mem_of_getLast?_eq_some hq
        have hstep := consistent_evictStep c q hc hqmem
        have hnd := hc.nodup
        rw [hys] at hnd
        have herase : listRemove c.order q = ys := by
          unfold listRemove
          rw [hys]
          exact erase_append_last ys q hnd
        have hlen2 : c.order.length = ys.length + 1 := by rw [hys]; simp
        obtain ⟨h1, j, hj, hord, hsum, hmaxj⟩ := ih _ hstep hmax
          (by show (listRemove c.order q).length ≤ n; rw [herase]; omega)
        simp only [herase] at hj hord hsum hmaxj
        refine ⟨h1, j, by omega, ?_, ?_, ?_⟩
        · simp only [herase]
          rw [hord, hys, List.take_append_of_le_length hj]
        · rw [hys, List.take_append_of_le_length hj]
          exact hsum
        · intro i hi hsi
          by_cases hfull : i = ys.length + 1
          · exfalso
            rw [hfull, ← hlen2, List.take_length] at hsi
            omega
          · have hi' : i ≤ ys.length := by omega
            apply hmaxj i hi'
            rw [hys, List.take_append_of_le_length hi'] at hsi
            exact hsi
    · rename_i hle
      refine ⟨rfl, c.order.length, le_refl _, ?_, ?_, fun i hi _ => hi⟩
      · rw [List.take_length]
      · rw [List.take_length, ← htot]
        omega

theorem totalSize_eq_sizeSum (c : NoOpCache) : c.totalSize = sizeSum c.entries := by
  unfold NoOpCache.totalSize sizeSum NoOpCache.entries
  rw [List.map_map]
  rfl

theorem sizeSum_take_entries (c : NoOpCache) (i : Nat) :
    ((c.order.take i).map fun p => entrySize (c.heap p)).sum = sizeSum (c.entries.take i) := by
  unfold sizeSum NoOpCache.entries
  rw [← List.map_take, List.map_map]
  rfl

/-- The method `evictIfNeeded` keeps the longest front part of the stored
entries that fits in `maxSize`. -/
theorem evictIfNeeded_entries (c : NoOpCache) (hc : c.Consistent) (hmax : 0 ≤ c.maxSize) :
    ∃ j, j ≤ c.entries.length ∧ c.evictIfNeeded.entries = c.entries.take j ∧
      sizeSum (c.entries.take j) ≤ c.maxSize ∧
      ∀ i, i ≤ c.entries.length → sizeSum (c.entries.take i) ≤ c.maxSize → i ≤ j := by
  obtain ⟨hheap, j, hj, hord, hsum, hmaxj⟩ := evictLoop_spec c.order.length c hc hmax (le_refl _)
  have hlen : c.entries.length = c.order.length := by simp [NoOpCache.entries]
  refine ⟨j, by omega, ?_, ?_, ?_⟩
  · unfold NoOpCache.evictIfNeeded
    show (NoOpCache.evictLoop c.order.length c).order.map (NoOpCache.evictLoop c.order.length c).heap
      = (c.order.map c.heap).take j
    rw [hheap, hord, List.map_take]
  · rw [← sizeSum_take_entries]; exact hsum
  · intro i hi hs
    rw [← sizeSum_take_entries] at hs
    exact hmaxj i (by omega) hs

theorem entries_insert (c : NoOpCache) (key value : GoString) (hc : c.Consistent)
    (hp : c.cache key = none) :
    ({ c with
        heap := Function.update c.heap c.next { key := key, value := value }
        next := c.next + 1
        order := c.next :: c.order
        cache := Function.update c.cache key (some c.next)
        currSize := c.currSize + ((key.length + value.length : Nat) : Int) } :
      NoOpCache).entries = { key := key, value := value } :: c.entries ∧
    c.entries.filter (fun e => decide (e.key ≠ key)) = c.entries := by
  have hfresh : c.next ∉ c.order := fun h => lt_irrefl _ (hc.fresh _ h)
  constructor
  · show (c.next :: c.order).map (Function.update c.heap c.next { key := key, value := value })
      = _ :: c.order.map c.heap
    rw [List.map_cons, Function.update_same]
    congr 1
    apply List.map_congr_left
    intro q hq
    have hne : q ≠ c.next := fun h => hfresh (h ▸ hq)
    rw [Function.update_noteq hne]
  · rw [List.filter_eq_self]
    intro e he
    obtain ⟨q, hq, rfl⟩ := List.mem_map.mp he
    simp only [ne_eq, decide_not, Bool.not_eq_true', decide_eq_false_iff_not]
    intro hk
    have := (hc.index key q).mpr ⟨hq, hk⟩
    rw [hp] at this
    cases this

theorem entries_update (c : NoOpCache) (key value : GoString) (p : Nat) (hc : c.Consistent)
    (hp : c.cache key = some p) :
    ({ c with
        heap := Function.update c.heap p { c.heap p with value := value }
        currSize := c.currSize - entrySize (c.heap p) + ((key.length + value.length : Nat) : Int)
        order := listMoveToFront c.order p } : NoOpCache).entries
      = { key := key, value := value } :: c.entries.filter (fun e => decide (e.key ≠ key)) := by
  obtain ⟨hmem, hkey⟩ := (hc.index key p).mp hp
  have ho : listMoveToFront c.order p = p :: c.order.erase p := by
    unfold listMoveToFront; rw [if_pos hmem]
  show (listMoveToFront c.order p).map (Function.update c.heap p { c.heap p with value := value })
    = _ :: (c.order.map c.heap).filter _
  rw [ho, List.map_cons, Function.update_same, List.filter_map, hc.nodup.erase_eq_filter]
  congr 1
  · simp [hkey]
  · have hf : c.order.filter ((fun e : cacheEntry => decide (e.key ≠ key)) ∘ c.heap)
        = c.order.filter (fun q => q != p) := by
      apply List.filter_congr
      intro q hq
      simp only [Function.comp, ne_eq, decide_not, bne_iff_ne]
      by_cases hqp : q = p
      · subst hqp; simp [hkey]
      · have : (c.heap q).key ≠ key := by
          intro hk
          have h1 := (hc.index key q).mpr ⟨hq, hk⟩
          rw [hp] at h1
          exact hqp (Option.some.inj h1).symm
        simp [this, hqp]
    rw [hf]
    apply List.map_congr_left
    intro q hq
    have hqp : q ≠ p := by
      have := (List.mem_filter.mp hq).2
      simpa using this
    rw [Function.update_noteq hqp]

/-- The recency order that `Set(key, value)` builds before it evicts: the new
entry in front, every other entry behind it in its previous order. -/
theorem Set_entries_spec (c : NoOpCache) (key value : GoString) (hc : c.Consistent)
    (hsize : ((key.length + value.length : Nat) : Int) ≤ c.maxSize) :
    ∃ j, j ≤ (({ key := key, value := value } : cacheEntry) ::
          c.entries.filter (fun e => decide (e.key ≠ key))).length ∧
      (c.Set key value).entries
        = (({ key := key, value := value } : cacheEntry) ::
          c.entries.filter (fun e => decide (e.key ≠ key))).take j ∧
      sizeSum ((({ key := key, value := value } : cacheEntry) ::
          c.entries.filter (fun e => decide (e.key ≠ key))).take j) ≤ c.maxSize ∧
      ∀ i, i ≤ (({ key := key, value := value } : cacheEntry) ::
          c.entries.filter (fun e => decide (e.key ≠ key))).length →
        sizeSum ((({ key := key, value := value } : cacheEntry) ::
          c.entries.filter (fun e => decide (e.key ≠ key))).take i) ≤ c.maxSize → i ≤ j := by
  have hmax : 0 ≤ c.maxSize := by omega
  unfold NoOpCache.Set
  simp only
  rw [if_neg (by omega)]
  split
  · rename_i p hp
    have h := evictIfNeeded_entries _ (consistent_update c key value p hc hp) hmax
    rw [entries_update c key value p hc hp] at h
    exact h
  · rename_i hp
    have h := evictIfNeeded_entries _ (consistent_insert c key value hc hp) hmax
    obtain ⟨h1, h2⟩ := entries_insert c key value hc hp
    rw [h1] at h
    rw [h2]
    exact h


theorem sizeSum_nonneg (es : List cacheEntry) : 0 ≤ sizeSum es := by
  unfold sizeSum
  induction es with
  | nil => simp
  | cons e es ih =>
    simp only [List.map_cons, List.sum_cons]
    have : 0 ≤ entrySize e := by unfold entrySize; omega
    omega

theorem evictIfNeeded_within (c : NoOpCache) (hc : c.Consistent) (hmax : 0 ≤ c.maxSize) :
    c.evictIfNeeded.currSize ≤ c.maxSize := by
  obtain ⟨j, _, hent, hsum, _⟩ := evictIfNeeded_entries c hc hmax
  have hcons : c.evictIfNeeded.Consistent := consistent_evictLoop _ c hc
  rw [hcons.size, totalSize_eq_sizeSum, hent]
  exact hsum

theorem Set_within (c : NoOpCache) (key value : GoString) (hc : c.Consistent)
    (hle : c.currSize ≤ c.maxSize) :
    (c.Set key value).currSize ≤ c.maxSize := by
  by_cases hsize : ((key.length + value.length : Nat) : Int) ≤ c.maxSize
  · have hmax : 0 ≤ c.maxSize := by omega
    unfold NoOpCache.Set
    simp only
    rw [if_neg (by omega)]
    split
    · rename_i p hp
      exact evictIfNeeded_within _ (consistent_update c key value p hc hp) hmax
    · rename_i hp
      exact evictIfNeeded_within _ (consistent_insert c key value hc hp) hmax
  · have : c.Set key value = c := by
      unfold NoOpCache.Set
      simp only
      rw [if_pos (by omega)]
    rw [this]
    exact hle

theorem currSize_Get (c : NoOpCache) (key : GoString) : (c.Get key).2.currSize = c.currSize := by
  unfold NoOpCache.Get
  split <;> rfl

theorem reachable_within (c0 c : NoOpCache) (h0 : c0.Consistent) (hle : c0.currSize ≤ c0.maxSize)
    (h : ReachableFrom c0 c) : c.currSize ≤ c.maxSize := by
  induction h with
  | init => exact hle
  | get c key hr ih => rw [currSize_Get, maxSize_Get]; exact ih
  | set c key value hr ih =>
    rw [maxSize_Set]
    exact Set_within c key value (reachable_consistent c0 c h0 hr).1 ih

theorem filter_key_take (key value : GoString) (es : List cacheEntry) (j : Nat) (hj : 1 ≤ j) :
    ((({ key := key, value := value } : cacheEntry) ::
        es.filter (fun e => decide (e.key ≠ key))).take j).filter (fun e => decide (e.key = key))
      = [{ key := key, value := value }] := by
  obtain ⟨j, rfl⟩ : ∃ i, j = i + 1 := ⟨j - 1, by omega⟩
  rw [List.take_succ_cons, List.filter_cons_of_pos (by simp)]
  congr 1
  rw [List.filter_eq_nil_iff]
  intro e he
  have := List.mem_of_mem_take he
  have := (List.mem_filter.mp this).2
  simpa using this

theorem mem_entries_iff (c : NoOpCache) (hc : c.Consistent) (key value : GoString) :
    ({ key := key, value := value } : cacheEntry) ∈ c.entries ↔
      ∃ p, c.cache key = some p ∧ c.heap p = { key := key, value := value } := by
  unfold NoOpCache.entries
  rw [List.mem_map]
  constructor
  · rintro ⟨p, hp, he⟩
    exact ⟨p, (hc.index key p).mpr ⟨hp, by rw [he]⟩, he⟩
  · rintro ⟨p, hp, he⟩
    exact ⟨p, ((hc.index key p).mp hp).1, he⟩

theorem key_mem_entries_iff (c : NoOpCache) (hc : c.Consistent) (key : GoString) :
    (∃ e ∈ c.entries, e.key = key) ↔ ∃ p, c.cache key = some p := by
  unfold NoOpCache.entries
  constructor
  · rintro ⟨e, he, hk⟩
    obtain ⟨p, hp, rfl⟩ := List.mem_map.mp he
    exact ⟨p, (hc.index key p).mpr ⟨hp, hk⟩⟩
  · rintro ⟨p, hp⟩
    obtain ⟨hmem, hk⟩ := (hc.index key p).mp hp
    exact ⟨c.heap p, List.mem_map.mpr ⟨p, hmem, rfl⟩, hk⟩

theorem entries_moveToFront (c : NoOpCache) (key : GoString) (p : Nat) (hc : c.Consistent)
    (hp : c.cache key = some p) :
    (listMoveToFront c.order p).map c.heap
      = c.heap p :: c.entries.filter (fun e => decide (e.key ≠ key)) := by
  have h := entries_update c key (c.heap p).value p hc hp
  have hk : (c.heap p).key = key := ((hc.index key p).mp hp).2
  have hu : Function.update c.heap p { c.heap p with value := (c.heap p).value } = c.heap := by
    apply Function.update_eq_self
  have he : ({ key := key, value := (c.heap p).value } : cacheEntry) = c.heap p := by
    rw [← hk]
  rw [he] at h
  rw [← h]
  show _ = (listMoveToFront c.order p).map
    (Function.update c.heap p { c.heap p with value := (c.heap p).value })
  rw [hu]


theorem keys_nodup (c : NoOpCache) (hc : c.Consistent) :
    (c.entries.map fun e => e.key).Nodup := by
  unfold NoOpCache.entries
  rw [List.map_map]
  apply List.Nodup.map_on _ hc.nodup
  intro p hp q hq hk
  have h1 := (hc.index (c.heap p).key p).mpr ⟨hp, rfl⟩
  have h2 := (hc.index (c.heap p).key q).mpr ⟨hq, hk.symm⟩
  rw [h1] at h2
  exact Option.some.inj h2

theorem entries_Get_perm (c : NoOpCache) (key : GoString) :
    (c.Get key).2.entries.Perm c.entries := by
  unfold NoOpCache.Get
  split
  · exact (listMoveToFront_perm _ _).map _
  · exact List.Perm.refl _

theorem mem_entries_Set (c : NoOpCache) (key value : GoString) (hc : c.Consistent)
    (e : cacheEntry) (he : e ∈ (c.Set key value).entries) :
    e = { key := key, value := value } ∨ e ∈ c.entries := by
  by_cases hsize : ((key.length + value.length : Nat) : Int) ≤ c.maxSize
  · obtain ⟨j, _, hent, _, _⟩ := Set_entries_spec c key value hc hsize
    rw [hent] at he
    rcases List.mem_cons.mp (List.mem_of_mem_take he) with h | h
    · exact Or.inl h
    · exact Or.inr (List.mem_filter.mp h).1
  · have : c.Set key value = c := by
      unfold NoOpCache.Set
      simp only
      rw [if_pos (by omega)]
    rw [this] at he
    exact Or.inr he

theorem parseReachable_inv (c : NoOpCache) (h : ParseReachable c) :
    c.Consistent ∧ ∀ e ∈ c.entries, parse e.key = .ok e.value := by
  induction h with
  | init => exact ⟨consistent_emptyCache _, by intro e he; simp [NewNoOpCache, emptyCache, NoOpCache.entries] at he⟩
  | get c input _ ih =>
    exact ⟨consistent_Get c input ih.1,
      fun e he => ih.2 e ((entries_Get_perm c input).mem_iff.mp he)⟩
  | set c input result _ hp ih =>
    refine ⟨consistent_Set c input result ih.1, fun e he => ?_⟩
    rcases mem_entries_Set c input result ih.1 e he with rfl | h
    · exact hp
    · exact ih.2 e h


/-! ## The claims -/

/-- C1. For every 32-byte string `h` of hexadecimal digits, `parse h` succeeds
with `format h`, that is `h[0..8] - h[8..12] - h[12..16] - h[16..20] - h[20..32]`
with the bytes of `h` unchanged and in order, and `parse (format h)` returns the
same string: the undashed and the dashed form normalise identically. -/
theorem C1_parse_undashed (h : GoString) (hlen : h.length = 32)
    (hhex : ∀ c ∈ h, IsHexChar c) :
    parse h = .ok (format h) ∧ parse (format h) = .ok (format h) := by
  constructor
  · rw [parse_of_length_32 h hlen, if_pos hhex]
  · exact parse_canonical _ (format_canonical h ⟨hlen, hhex⟩)

set_option maxRecDepth 100000 in
/-- The example of the specification: `a1b2c3d4e5f678901234567890abcdef` gives
`a1b2c3d4-e5f6-7890-1234-567890abcdef`, and so does the dashed form. -/
theorem C1_parse_undashed_witness :
    format sampleUndashed = sampleDashed ∧
      parse sampleUndashed = .ok sampleDashed ∧ parse sampleDashed = .ok sampleDashed :=
  ⟨by decide, C1_parse_undashed sampleUndashed (by decide) (by decide)⟩

/-- C2. For every 36-byte string `c` with `-` at offsets 8, 13, 18, 23 and a
hexadecimal digit at each other offset, `parse c` succeeds and returns `c`
itself. -/
theorem C2_parse_canonical_identity (c : GoString) (hlen : c.length = 36)
    (hdash : byteAt c 8 = dash ∧ byteAt c 13 = dash ∧ byteAt c 18 = dash ∧ byteAt c 23 = dash)
    (hhex : ∀ k, k < 36 → k ≠ 8 → k ≠ 13 → k ≠ 18 → k ≠ 23 → IsHexChar (byteAt c k)) :
    parse c = .ok c := by
  apply parse_canonical
  refine ⟨hlen, fun k hk => ?_⟩
  unfold ValidAt36
  split
  · rename_i h
    rcases h with rfl | rfl | rfl | rfl
    · exact hdash.1
    · exact hdash.2.1
    · exact hdash.2.2.1
    · exact hdash.2.2.2
  · rename_i h
    simp only [not_or] at h
    exact hhex k hk h.1 h.2.1 h.2.2.1 h.2.2.2

set_option maxRecDepth 100000 in
/-- The dashed sample is returned unchanged. -/
theorem C2_parse_canonical_identity_witness : parse sampleDashed = .ok sampleDashed :=
  C2_parse_canonical_identity sampleDashed (by decide) (by decide) (by decide)

/-- C3. The function `parse` succeeds exactly on the 32-byte strings of
hexadecimal digits and on the 36-byte strings with `-` at offsets 8, 13, 18, 23
and hexadecimal digits elsewhere; every other string is rejected with an error.
Membership in `0-9a-fA-F` is what the 256-entry `hexTable` decides. -/
theorem C3_parse_succeeds_iff (id : GoString) :
    ((∃ v, parse id = .ok v) ↔ (IsUndashed id ∨ IsCanonical id)) ∧
    (¬ (IsUndashed id ∨ IsCanonical id) → ∃ e, parse id = .err e) ∧
    (hexTable.length = 256 ∧ ∀ c : Byte, isHex c = .ok (decide (IsHexChar c))) := by
  refine ⟨⟨?_, ?_⟩, ?_, by simp [hexTable], isHex_eq⟩
  · rintro ⟨v, hv⟩
    rcases parse_cases id with ⟨hu, _⟩ | ⟨hc, _⟩ | ⟨_, _, e, he, _⟩
    · exact Or.inl hu
    · exact Or.inr hc
    · rw [he] at hv; cases hv
  · intro h
    rcases parse_cases id with ⟨_, hp⟩ | ⟨_, hp⟩ | ⟨hu, hc, _⟩
    · exact ⟨_, hp⟩
    · exact ⟨_, hp⟩
    · rcases h with h | h
      · exact absurd h hu
      · exact absurd h hc
  · intro h
    rcases parse_cases id with ⟨hu, _⟩ | ⟨hc, _⟩ | ⟨_, _, e, he, _⟩
    · exact absurd (Or.inl hu) h
    · exact absurd (Or.inr hc) h
    · exact ⟨e, he⟩

set_option maxRecDepth 100000 in
/-- A 36-byte string with a blank at each end is rejected. -/
theorem C3_parse_succeeds_iff_witness :
    ¬ (IsUndashed samplePadded ∨ IsCanonical samplePadded) ∧
      ∃ e, parse samplePadded = .err e :=
  ⟨by decide, (C3_parse_succeeds_iff samplePadded).2.1 (by decide)⟩

/-- C4. Whenever `parse` succeeds, the returned string has length 36, has `-`
at offsets 8, 13, 18 and 23, and a hexadecimal digit at each of the other 32
offsets. -/
theorem C4_parse_output_shape (id v : GoString) (h : parse id = .ok v) :
    v.length = 36 ∧
    (byteAt v 8 = dash ∧ byteAt v 13 = dash ∧ byteAt v 18 = dash ∧ byteAt v 23 = dash) ∧
    (∀ k, k < 36 → k ≠ 8 → k ≠ 13 → k ≠ 18 → k ≠ 23 → IsHexChar (byteAt v k)) := by
  have hc : IsCanonical v := by
    rcases parse_cases id with ⟨hu, hp⟩ | ⟨hc, hp⟩ | ⟨_, _, e, he, _⟩
    · rw [hp] at h; cases h; exact format_canonical id hu
    · rw [hp] at h; cases h; exact hc
    · rw [he] at h; cases h
  refine ⟨hc.1, ⟨?_, ?_, ?_, ?_⟩, ?_⟩
  · simpa [ValidAt36] using hc.2 8 (by omega)
  · simpa [ValidAt36] using hc.2 13 (by omega)
  · simpa [ValidAt36] using hc.2 18 (by omega)
  · simpa [ValidAt36] using hc.2 23 (by omega)
  · intro k hk h8 h13 h18 h23
    have := hc.2 k hk
    unfold ValidAt36 at this
    rwa [if_neg (by omega)] at this

set_option maxRecDepth 100000 in
/-- The shape of the result of parsing the undashed sample. -/
theorem C4_parse_output_shape_witness :
    sampleDashed.length = 36 ∧
    (byteAt sampleDashed 8 = dash ∧ byteAt sampleDashed 13 = dash ∧
      byteAt sampleDashed 18 = dash ∧ byteAt sampleDashed 23 = dash) ∧
    (∀ k, k < 36 → k ≠ 8 → k ≠ 13 → k ≠ 18 → k ≠ 23 → IsHexChar (byteAt sampleDashed k)) :=
  C4_parse_output_shape sampleUndashed sampleDashed (by decide)

/-- C5. An input whose length is neither 32 nor 36 (the empty string
included) makes `parse` return `errInvalidLength`, whatever its contents, and so
does `IDParser.Parse` on a parser backed by a fresh `NewNoOpCache`. -/
theorem C5_invalid_length (id : GoString) (h32 : id.length ≠ 32) (h36 : id.length ≠ 36) :
    parse id = .err .errInvalidLength ∧
    (IDParser.Parse noOpCache NewNoOpCache id).1 = .err .errInvalidLength := by
  have hp := parse_bad_length id ⟨h32, h36⟩
  exact ⟨hp, by rw [Parse_fresh, hp]⟩

/-- The empty string has an invalid length. -/
theorem C5_invalid_length_witness :
    parse [] = .err .errInvalidLength ∧
    (IDParser.Parse noOpCache NewNoOpCache []).1 = .err .errInvalidLength :=
  C5_invalid_length [] (by decide) (by decide)

/-- C6. A 32-byte input in which exactly one byte, at offset `i`, is not a
hexadecimal digit is rejected with `errInvalidChar`, by `parse` and by
`IDParser.Parse` on a parser backed by a fresh `NewNoOpCache`. -/
theorem C6_one_invalid_char (id : GoString) (i : Nat) (hlen : id.length = 32) (hi : i < 32)
    (hbad : ¬ IsHexChar (byteAt id i))
    (hrest : ∀ k, k < 32 → k ≠ i → IsHexChar (byteAt id k)) :
    parse id = .err .errInvalidChar ∧
    (IDParser.Parse noOpCache NewNoOpCache id).1 = .err .errInvalidChar := by
  have hp : parse id = .err .errInvalidChar := by
    rw [parse_of_length_32 id hlen, if_neg]
    intro hall
    exact hbad (hall _ (byteAt_mem id i (by omega)))
  exact ⟨hp, by rw [Parse_fresh, hp]⟩

set_option maxRecDepth 100000 in
/-- The undashed sample with `g` as its last byte. -/
theorem C6_one_invalid_char_witness :
    parse sampleInvalidChar = .err .errInvalidChar ∧
    (IDParser.Parse noOpCache NewNoOpCache sampleInvalidChar).1 = .err .errInvalidChar :=
  C6_one_invalid_char sampleInvalidChar 31 (by decide) (by decide) (by decide) (by decide)

/-- C7. For a 36-byte input whose leftmost offending offset is `i`, `parse`
returns `errMisplacedDash` when `i` is one of 8, 13, 18, 23 and `errInvalidChar`
otherwise; the bytes after offset `i` do not matter; in particular a non-hyphen
at offset 13 with hexadecimal digits at offsets 0-7 and 9-12 yields
`errMisplacedDash`. -/
theorem C7_leftmost_violation_decides :
    (∀ (id : GoString) (i : Nat), id.length = 36 → i < 36 → ¬ ValidAt36 id i →
      (∀ k, k < i → ValidAt36 id k) →
      parse id = .err (if i = 8 ∨ i = 13 ∨ i = 18 ∨ i = 23 then .errMisplacedDash
        else .errInvalidChar) ∧
      ∀ id2 : GoString, id2.length = 36 → id2.take (i + 1) = id.take (i + 1) →
        parse id2 = parse id) ∧
    (∀ id : GoString, id.length = 36 → byteAt id 13 ≠ dash →
      (∀ k, k < 13 → k ≠ 8 → IsHexChar (byteAt id k)) →
      parse id = .err .errMisplacedDash) := by
  constructor
  · intro id i hlen hi hbad hfirst
    have hp := parse_36_err id hlen i hi hbad hfirst
    refine ⟨by rw [hp, errAt36_eq], ?_⟩
    intro id2 hlen2 htake
    rw [hp]
    apply parse_36_err id2 hlen2 i hi
    · rwa [validAt36_congr id id2 (i + 1) htake i (by omega)]
    · intro k hk
      rw [validAt36_congr id id2 (i + 1) htake k (by omega)]
      exact hfirst k hk
  · intro id hlen h13 hhex
    have hv : ∀ k, k < 13 → k ≠ 8 → ValidAt36 id k := by
      intro k hk hk8
      unfold ValidAt36
      rw [if_neg (by omega)]
      exact hhex k hk hk8
    have hbad13 : ¬ ValidAt36 id 13 := by
      unfold ValidAt36
      rw [if_pos (by omega)]
      exact h13
    by_cases h8 : ValidAt36 id 8
    · rw [parse_36_err id hlen 13 (by omega) hbad13
        (fun k hk => by
          by_cases hk8 : k = 8
          · rw [hk8]; exact h8
          · exact hv k hk hk8),
        errAt36_eq, if_pos (by omega)]
    · rw [parse_36_err id hlen 8 (by omega) h8 (fun k hk => hv k (by omega) (by omega)),
        errAt36_eq, if_pos (by omega)]

set_option maxRecDepth 100000 in
/-- The dashed sample with `0` at offset 13: the leftmost offending offset is 13. -/
theorem C7_leftmost_violation_decides_witness :
    sampleMisplacedDash.length = 36 ∧ ¬ ValidAt36 sampleMisplacedDash 13 ∧
    (∀ k, k < 13 → ValidAt36 sampleMisplacedDash k) ∧
    parse sampleMisplacedDash = .err .errMisplacedDash ∧
    (∀ id2 : GoString, id2.length = 36 →
      id2.take 14 = sampleMisplacedDash.take 14 → parse id2 = parse sampleMisplacedDash) :=
  ⟨by decide, by decide, by decide,
    C7_leftmost_violation_decides.1 sampleMisplacedDash 13 (by decide) (by decide)
      (by decide) (by decide)⟩

set_option maxRecDepth 100000 in
/-- C8 fails as stated: the 36-byte input `a1b2c3d40e5f6-7890-1234-567890abcdeg`
has a non-hexadecimal byte at the hexadecimal offset 35 and a non-hyphen at
offset 8, and `parse` reports `errMisplacedDash`, not `errInvalidChar`. -/
theorem C8_counterexample :
    sampleBothViolations.length = 36 ∧
    ¬ IsHexChar (byteAt sampleBothViolations 35) ∧
    byteAt sampleBothViolations 8 ≠ dash ∧
    parse sampleBothViolations = .err .errMisplacedDash ∧
    parse sampleBothViolations ≠ .err .errInvalidChar := by
  decide

/-- C8, amended. The length is checked first: a length other than 32 and 36
gives `errInvalidLength` whatever the bytes are.  For a 36-byte input that has
both a non-hexadecimal byte at a hexadecimal offset (the leftmost one at `kh`)
and a non-hyphen at one of the offsets 8, 13, 18, 23 (the leftmost one at `kd`),
`parse` reports the violation that comes first in scan order: `errInvalidChar`
when `kh < kd`, and `errMisplacedDash` otherwise. -/
theorem C8_scan_order_decides (id : GoString) (hlen : id.length = 36)
    (kh kd : Nat) (hkh : kh < 36) (hkd : kd = 8 ∨ kd = 13 ∨ kd = 18 ∨ kd = 23)
    (hposh : kh ≠ 8 ∧ kh ≠ 13 ∧ kh ≠ 18 ∧ kh ≠ 23)
    (hbadh : ¬ IsHexChar (byteAt id kh)) (hbadd : byteAt id kd ≠ dash)
    (hminh : ∀ k, k < kh → k ≠ 8 → k ≠ 13 → k ≠ 18 → k ≠ 23 → IsHexChar (byteAt id k))
    (hmind : ∀ k, k < kd → (k = 8 ∨ k = 13 ∨ k = 18 ∨ k = 23) → byteAt id k = dash) :
    parse id = .err (if kh < kd then .errInvalidChar else .errMisplacedDash) ∧
    (∀ id2 : GoString, id2.length ≠ 32 → id2.length ≠ 36 →
      parse id2 = .err .errInvalidLength) := by
  refine ⟨?_, fun id2 h32 h36 => parse_bad_length id2 ⟨h32, h36⟩⟩
  have hvd : ¬ ValidAt36 id kd := by
    unfold ValidAt36; rw [if_pos hkd]; exact hbadd
  have hvh : ¬ ValidAt36 id kh := by
    unfold ValidAt36; rw [if_neg (by omega)]; exact hbadh
  have hbelow : ∀ k, k < kh → k < kd → ValidAt36 id k := by
    intro k h1 h2
    unfold ValidAt36
    by_cases hk : k = 8 ∨ k = 13 ∨ k = 18 ∨ k = 23
    · rw [if_pos hk]; exact hmind k h2 hk
    · rw [if_neg hk]; exact hminh k h1 (by omega) (by omega) (by omega) (by omega)
  by_cases hlt : kh < kd
  · rw [if_pos hlt, parse_36_err id hlen kh hkh hvh (fun k hk => hbelow k hk (by omega)),
      errAt36_eq, if_neg (by omega)]
  · rw [if_neg hlt, parse_36_err id hlen kd (by omega) hvd
      (fun k hk => hbelow k (by omega) hk), errAt36_eq, if_pos hkd]

set_option maxRecDepth 100000 in
/-- With the non-hyphen at offset 8 and the non-hexadecimal byte at offset 35 the
hyphen violation comes first. -/
theorem C8_scan_order_decides_witness :
    parse sampleBothViolations = .err .errMisplacedDash :=
  (C8_scan_order_decides sampleBothViolations (by decide) 35 8 (by decide) (by decide)
    (by decide) (by decide) (by decide) (by decide) (by decide)).1

/-- C9. On every input `parse` returns a value or an error and never panics:
no read `id[i]`, no lookup `hexTable[c]` and no write `buf[j]` is out of range;
when the 32-byte loop runs to completion the write index ends at 36, the length
of the buffer. -/
theorem C9_parse_never_panics (id : GoString) :
    parse id ≠ .crash ∧ scan id ≠ .crash ∧
    (∀ c : Byte, isHex c ≠ .crash) ∧
    (∀ s, id.length = 32 → forLoop (body32 id) 32 0 initState = .ok s →
      s.j = 36 ∧ s.buf.length = 36) := by
  refine ⟨?_, ?_, ?_, ?_⟩
  · rcases parse_cases id with ⟨_, hp⟩ | ⟨_, hp⟩ | ⟨_, _, e, hp, _⟩ <;> rw [hp] <;> simp
  · unfold scan
    by_cases h32 : id.length = 32
    · rw [if_pos h32, scan32_eq id h32]
      split <;> simp
    · rw [if_neg h32]
      by_cases h36 : id.length = 36
      · rw [if_pos h36]
        by_cases hv : ∀ k, k < 36 → ValidAt36 id k
        · rw [scan36_ok id h36 hv]; simp
        · obtain ⟨m, hm, hbad, hfirst⟩ := exists_first_invalid id hv
          rw [scan36_err id h36 m hm hbad hfirst]; simp
      · rw [if_neg h36]; simp
  · intro c; rw [isHex_eq]; simp
  · intro s hlen hs
    rw [scan32_eq id hlen] at hs
    split at hs
    · cases hs
      exact ⟨rfl, format_length id hlen⟩
    · cases hs

set_option maxRecDepth 100000 in
/-- The 32-byte loop on the undashed sample ends with `j = 36`. -/
theorem C9_parse_never_panics_witness :
    ∃ s, forLoop (body32 sampleUndashed) 32 0 initState = .ok s ∧
      s.j = 36 ∧ s.buf.length = 36 :=
  ⟨{ buf := sampleDashed, j := 36, hexCount := 32, dashCount := 4 }, by decide,
    (C9_parse_never_panics sampleUndashed).2.2.2 _ (by decide) (by decide)⟩


/-- C10. Let `c` be a state of the cache of `NewNoOpCache` reached by `Get` and
`Set` calls, and let `Parse(x)` succeed with value `v` in it.  In the state
after the call `Get(x)` returns `(v, true)`, and a second `Parse(x)` returns
`v` again and is served from the cache: it changes the cache as that `Get`
alone does. -/
theorem C10_parse_populates_cache (c : NoOpCache) (x v : GoString)
    (hreach : ReachableFrom NewNoOpCache c)
    (hparse : (IDParser.Parse noOpCache c x).1 = .ok v) :
    ((IDParser.Parse noOpCache c x).2.Get x).1 = (v, true) ∧
    (IDParser.Parse noOpCache (IDParser.Parse noOpCache c x).2 x).1 = .ok v ∧
    (IDParser.Parse noOpCache (IDParser.Parse noOpCache c x).2 x).2
      = ((IDParser.Parse noOpCache c x).2.Get x).2 := by
  obtain ⟨hc, hmax⟩ := reachable_consistent _ c (consistent_emptyCache _) hreach
  have hget : ((IDParser.Parse noOpCache c x).2.Get x).1 = (v, true) := by
    cases hcx : c.cache x with
    | some p =>
      obtain ⟨h1, _⟩ := Parse_of_hit c x p hcx
      rw [h1] at hparse ⊢
      cases hparse
      unfold NoOpCache.Get
      simp only [hcx]
    | none =>
      have hp : parse x = .ok v := by rw [← Parse_of_miss c x hcx]; exact hparse
      rw [Parse_of_miss_ok c x v hcx hp]
      apply Set_then_Get c x v hc
      have hl := parse_ok_length x v hp
      rw [hmax]
      show _ ≤ (1024 * 1024 : Int)
      omega
  obtain ⟨p, hp1, hp2⟩ := Get_hit_cache _ x v hget
  obtain ⟨h1, _⟩ := Parse_of_hit _ x p hp1
  rw [h1, hp2]
  exact ⟨hget, rfl, rfl⟩

set_option maxRecDepth 100000 in
/-- Parsing the undashed sample with a fresh cache, then asking again. -/
theorem C10_parse_populates_cache_witness :
    ((IDParser.Parse noOpCache NewNoOpCache sampleUndashed).2.Get sampleUndashed).1
      = (sampleDashed, true) ∧
    (IDParser.Parse noOpCache (IDParser.Parse noOpCache NewNoOpCache sampleUndashed).2
      sampleUndashed).1 = .ok sampleDashed ∧
    (IDParser.Parse noOpCache (IDParser.Parse noOpCache NewNoOpCache sampleUndashed).2
      sampleUndashed).2
      = ((IDParser.Parse noOpCache NewNoOpCache sampleUndashed).2.Get sampleUndashed).2 :=
  C10_parse_populates_cache NewNoOpCache sampleUndashed sampleDashed ReachableFrom.init
    (by decide)


/-- C11. When `Parse(x)` on a parser backed by a `NoOpCache` returns an error,
the cache is exactly as it was before the call: the state is the one the
missing `Get` left, no `Set` has been applied, keys, values, recency order and
`currSize` are unchanged, and `x` is not a key afterwards. -/
theorem C11_failed_parse_leaves_cache (c : NoOpCache) (x : GoString) (e : ParseError)
    (h : (IDParser.Parse noOpCache c x).1 = .err e) :
    (IDParser.Parse noOpCache c x).2 = c ∧
    (IDParser.Parse noOpCache c x).2 = (c.Get x).2 ∧
    (IDParser.Parse noOpCache c x).2.cache x = none ∧
    (IDParser.Parse noOpCache c x).2.entries = c.entries ∧
    (IDParser.Parse noOpCache c x).2.currSize = c.currSize := by
  obtain ⟨hm, _, hs⟩ := Parse_err_state noOpCache c x e h
  have hmiss : c.cache x = none := (Get_miss_iff c x).mp hm
  have hst : (IDParser.Parse noOpCache c x).2 = c := by
    rw [hs]
    show (c.Get x).2 = c
    rw [Get_of_miss c x hmiss]
  rw [hst]
  exact ⟨rfl, by rw [Get_of_miss c x hmiss], hmiss, rfl, rfl⟩

set_option maxRecDepth 100000 in
/-- A failed `Parse` on the fresh cache leaves it fresh. -/
theorem C11_failed_parse_leaves_cache_witness :
    (IDParser.Parse noOpCache NewNoOpCache sampleInvalidChar).2 = NewNoOpCache ∧
    (IDParser.Parse noOpCache NewNoOpCache sampleInvalidChar).2
      = (NewNoOpCache.Get sampleInvalidChar).2 ∧
    (IDParser.Parse noOpCache NewNoOpCache sampleInvalidChar).2.cache sampleInvalidChar = none ∧
    (IDParser.Parse noOpCache NewNoOpCache sampleInvalidChar).2.entries = NewNoOpCache.entries ∧
    (IDParser.Parse noOpCache NewNoOpCache sampleInvalidChar).2.currSize
      = NewNoOpCache.currSize :=
  C11_failed_parse_leaves_cache NewNoOpCache sampleInvalidChar .errInvalidChar (by decide)

set_option maxRecDepth 100000 in
/-- C12 fails as stated: after another caller has `Set` the key
`a1b2c3d4e5f678901234567890abcdeg` in a shared `NoOpCache`, `Parse` of that key
succeeds with the stored value although `parse` reports `errInvalidChar`; and a
`Cache` implementation that always reports a hit makes `Parse` succeed too. -/
theorem C12_counterexample :
    (IDParser.Parse noOpCache (NewNoOpCache.Set sampleInvalidChar sampleDashed)
      sampleInvalidChar).1 = .ok sampleDashed ∧
    parse sampleInvalidChar = .err .errInvalidChar ∧
    (IDParser.Parse alwaysHitCache () sampleInvalidChar).1 = .ok [] := by
  decide

/-- C12, amended. For every implementation of the `Cache` interface, whatever
its `Set` does, and every input for which `Get` does not report a hit with a
value other than the one `parse` returns (in particular whenever `Get` misses),
`IDParser.Parse` returns the same value or error as `parse`. -/
theorem C12_parse_agrees_unless_stale_hit {σ : Type} (cache : Cache σ) (st : σ)
    (input : GoString)
    (hhit : ∀ val, (cache.Get st input).1 = (val, true) → parse input = .ok val) :
    (IDParser.Parse cache st input).1 = parse input := by
  unfold IDParser.Parse
  rcases hg : cache.Get st input with ⟨⟨val, b⟩, st1⟩
  cases b with
  | true =>
    have := hhit val (by rw [hg])
    simp only
    exact this.symm
  | false =>
    simp only
    cases parse input <;> rfl

set_option maxRecDepth 100000 in
/-- A hit with the value that `parse` returns: the second `Parse` of the undashed
sample on a `NoOpCache` that only `Parse` has filled. -/
theorem C12_parse_agrees_unless_stale_hit_witness :
    (IDParser.Parse noOpCache (IDParser.Parse noOpCache NewNoOpCache sampleUndashed).2
      sampleUndashed).1 = parse sampleUndashed :=
  C12_parse_agrees_unless_stale_hit noOpCache
    (IDParser.Parse noOpCache NewNoOpCache sampleUndashed).2 sampleUndashed
    (fun val h => by
      have h2 : (noOpCache.Get (IDParser.Parse noOpCache NewNoOpCache sampleUndashed).2
          sampleUndashed).1 = (sampleDashed, true) := by decide
      rw [h2] at h
      cases h
      decide)

/-- C13. In every state reached by `Set` and `Get` calls from an empty
`NoOpCache` of capacity `m ≥ 0`, the sum of `len(key) + len(value)` over the
stored entries is at most `m`; for the cache of `NewNoOpCache` that is at most
1,048,576. -/
theorem C13_total_size_within_capacity :
    (∀ (m : Int) (c : NoOpCache), 0 ≤ m → ReachableFrom (emptyCache m) c →
      sizeSum c.entries ≤ m ∧ c.maxSize = m) ∧
    (∀ c : NoOpCache, ReachableFrom NewNoOpCache c → sizeSum c.entries ≤ 1048576) := by
  have key : ∀ (m : Int) (c : NoOpCache), 0 ≤ m → ReachableFrom (emptyCache m) c →
      sizeSum c.entries ≤ m ∧ c.maxSize = m := by
    intro m c hm hr
    obtain ⟨hc, hmax⟩ := reachable_consistent _ c (consistent_emptyCache m) hr
    have hw := reachable_within _ c (consistent_emptyCache m) (by simpa [emptyCache] using hm) hr
    rw [hc.size, totalSize_eq_sizeSum, hmax] at hw
    exact ⟨hw, hmax⟩
  exact ⟨key, fun c hr => (key (1024 * 1024) c (by norm_num) hr).1⟩

/-- Three two-byte entries set in a cache of capacity 4. -/
theorem C13_total_size_within_capacity_witness :
    sizeSum (((smallCache.Set entryA.key entryA.value).Set entryB.key entryB.value).Set
      entryC.key entryC.value).entries ≤ 4 :=
  (C13_total_size_within_capacity.1 4 _ (by decide)
    (.set _ _ _ (.set _ _ _ (.set _ _ _ .init)))).1

/-- C14. When `len(key) + len(value)` exceeds the capacity, `Set(key, value)`
returns the cache unchanged: map, recency list, entries and `currSize` are the
same, so an entry stored under that key keeps its value and its place. -/
theorem C14_oversized_set_is_noop (c : NoOpCache) (key value : GoString)
    (h : ((key.length + value.length : Nat) : Int) > c.maxSize) :
    c.Set key value = c ∧ (c.Set key value).Get key = c.Get key := by
  have : c.Set key value = c := by
    unfold NoOpCache.Set
    simp only
    rw [if_pos h]
  rw [this]
  exact ⟨rfl, rfl⟩

/-- In a cache of capacity 4 holding `a -> x`, `Set` of the five-byte entry
`a -> wxyz` changes nothing. -/
theorem C14_oversized_set_is_noop_witness :
    (smallCache.Set entryA.key entryA.value).Set entryA.key [119, 120, 121, 122]
      = smallCache.Set entryA.key entryA.value ∧
    ((smallCache.Set entryA.key entryA.value).Set entryA.key [119, 120, 121, 122]).Get entryA.key
      = (smallCache.Set entryA.key entryA.value).Get entryA.key :=
  C14_oversized_set_is_noop (smallCache.Set entryA.key entryA.value) entryA.key
    [119, 120, 121, 122] (by decide)

/-- C15. Let `c` be reached from an empty cache of capacity `m` and let
`len(key) + len(value) ≤ m`.  With `L` the recency order that has
`(key, value)` in front and every other entry behind it in its previous order,
the entries stored after `Set(key, value)` are a front part of `L`, they fit in
`m`, no longer front part of `L` fits in `m`, and nothing is evicted when `L`
itself fits. -/
theorem C15_eviction_is_lru (m : Int) (c : NoOpCache) (key value : GoString)
    (hreach : ReachableFrom (emptyCache m) c)
    (hsize : ((key.length + value.length : Nat) : Int) ≤ m) :
    (c.Set key value).entries <+:
      ({ key := key, value := value } :: c.entries.filter (fun e => decide (e.key ≠ key))) ∧
    sizeSum (c.Set key value).entries ≤ m ∧
    (∀ P : List cacheEntry,
      P <+: ({ key := key, value := value } :: c.entries.filter (fun e => decide (e.key ≠ key))) →
      sizeSum P ≤ m → P.length ≤ (c.Set key value).entries.length) ∧
    (sizeSum ({ key := key, value := value } :: c.entries.filter (fun e => decide (e.key ≠ key)))
        ≤ m →
      (c.Set key value).entries
        = { key := key, value := value } :: c.entries.filter (fun e => decide (e.key ≠ key))) := by
  obtain ⟨hc, hmax⟩ := reachable_consistent _ c (consistent_emptyCache m) hreach
  have hmax' : c.maxSize = m := hmax
  obtain ⟨j, hj, hent, hsum, hmaxj⟩ := Set_entries_spec c key value hc (by rw [hmax']; exact hsize)
  rw [hmax'] at hsum hmaxj
  rw [hent]
  refine ⟨List.take_prefix _ _, hsum, ?_, ?_⟩
  · intro P hP hPs
    have hPt := List.prefix_iff_eq_take.mp hP
    rw [hPt] at hPs
    have := hmaxj P.length hP.length_le hPs
    rw [List.length_take]
    omega
  · intro hall
    have := hmaxj _ (le_refl _) (by rw [List.take_length]; exact hall)
    rw [List.take_of_length_le this]

/-- The two scenarios of the specification, in a cache that holds two entries. -/
theorem C15_eviction_is_lru_witness :
    ((((smallCache.Set entryA.key entryA.value).Set entryB.key entryB.value).Get
        entryA.key).2.Set entryC.key entryC.value).entries = [entryC, entryA] ∧
    (((smallCache.Set entryA.key entryA.value).Set entryB.key entryB.value).Set
        entryC.key entryC.value).entries = [entryC, entryB] ∧
    ((((smallCache.Set entryA.key entryA.value).Set entryB.key entryB.value).Get
        entryA.key).2.Set entryC.key entryC.value).entries <+:
      (entryC :: (((smallCache.Set entryA.key entryA.value).Set entryB.key entryB.value).Get
        entryA.key).2.entries.filter (fun e => decide (e.key ≠ entryC.key))) :=
  ⟨by decide, by decide,
    (C15_eviction_is_lru 4 _ entryC.key entryC.value
      (.get _ _ (.set _ _ _ (.set _ _ _ .init))) (by decide)).1⟩

/-- C16. Let `c` be reached from an empty cache of capacity `m` and let
`len(key) + len(value) ≤ m`.  After `Set(key, value)`, `Get(key)` returns
`(value, true)`, the entry `(key, value)` is the most recently used one, and it
is the only stored entry with that key: an old value is replaced, and the entry
just written is never evicted. -/
theorem C16_set_then_get (m : Int) (c : NoOpCache) (key value : GoString)
    (hreach : ReachableFrom (emptyCache m) c)
    (hsize : ((key.length + value.length : Nat) : Int) ≤ m) :
    ((c.Set key value).Get key).1 = (value, true) ∧
    (c.Set key value).entries.head? = some { key := key, value := value } ∧
    (c.Set key value).entries.filter (fun e => decide (e.key = key))
      = [{ key := key, value := value }] := by
  obtain ⟨hc, hmax⟩ := reachable_consistent _ c (consistent_emptyCache m) hreach
  have hmax' : c.maxSize = m := hmax
  have hs : ((key.length + value.length : Nat) : Int) ≤ c.maxSize := by rw [hmax']; exact hsize
  obtain ⟨j, hj, hent, hsum, hmaxj⟩ := Set_entries_spec c key value hc hs
  have h1 : 1 ≤ j := by
    apply hmaxj 1 (by simp)
    simp only [List.take_succ_cons, List.take_zero, sizeSum, List.map_cons, List.map_nil,
      List.sum_cons, List.sum_nil, add_zero, entrySize]
    exact hs
  refine ⟨Set_then_Get c key value hc hs, ?_, ?_⟩
  · rw [hent]
    obtain ⟨i, rfl⟩ : ∃ i, j = i + 1 := ⟨j - 1, by omega⟩
    rfl
  · rw [hent]
    exact filter_key_take key value c.entries j h1

/-- Overwriting `a -> x` by the larger `a -> xyz` in a cache of capacity 4. -/
theorem C16_set_then_get_witness :
    (((smallCache.Set entryA.key entryA.value).Set entryA.key [120, 121, 122]).Get
      entryA.key).1 = ([120, 121, 122], true) ∧
    ((smallCache.Set entryA.key entryA.value).Set entryA.key [120, 121, 122]).entries.head?
      = some { key := entryA.key, value := [120, 121, 122] } ∧
    ((smallCache.Set entryA.key entryA.value).Set entryA.key [120, 121, 122]).entries.filter
      (fun e => decide (e.key = entryA.key)) = [{ key := entryA.key, value := [120, 121, 122] }] :=
  C16_set_then_get 4 _ entryA.key [120, 121, 122] (.set _ _ _ .init) (by decide)

/-- C17. In a consistent cache, as every cache built by `NewNoOpCache` and its
methods is: if `key` is stored with `value`, `Get(key)` returns `(value, true)`
and moves that entry to the front, the other entries keep their order, and map,
values, `currSize` and `maxSize` are unchanged; if `key` is not stored,
`Get(key)` returns the empty string and `false` and leaves the cache as it was.
In both cases the stored entries are the same up to order. -/
theorem C17_get_frame (c : NoOpCache) (hc : c.Consistent) (key : GoString) :
    (∀ value : GoString, ({ key := key, value := value } : cacheEntry) ∈ c.entries →
      (c.Get key).1 = (value, true) ∧
      (c.Get key).2.entries
        = { key := key, value := value } :: c.entries.filter (fun e => decide (e.key ≠ key)) ∧
      (c.Get key).2.entries.Perm c.entries ∧
      (c.Get key).2.cache = c.cache ∧ (c.Get key).2.heap = c.heap ∧
      (c.Get key).2.currSize = c.currSize ∧ (c.Get key).2.maxSize = c.maxSize) ∧
    ((∀ e ∈ c.entries, e.key ≠ key) → c.Get key = (([], false), c)) ∧
    (c.Get key).2.entries.Perm c.entries := by
  have hperm : (c.Get key).2.entries.Perm c.entries := by
    unfold NoOpCache.Get
    split
    · exact (listMoveToFront_perm _ _).map _
    · exact List.Perm.refl _
  refine ⟨?_, ?_, hperm⟩
  · intro value hmem
    obtain ⟨p, hp, he⟩ := (mem_entries_iff c hc key value).mp hmem
    have hg : c.Get key = (((c.heap p).value, true),
        { c with order := listMoveToFront c.order p }) := by
      unfold NoOpCache.Get
      simp only [hp]
    refine ⟨?_, ?_, hperm, ?_, ?_, ?_, ?_⟩
    · rw [hg, he]
    · rw [hg]
      show (listMoveToFront c.order p).map c.heap = _
      rw [entries_moveToFront c key p hc hp, he]
    · rw [hg]
    · rw [hg]
    · rw [hg]
    · rw [hg]
  · intro hnone
    apply Get_of_miss
    cases hcx : c.cache key with
    | none => rfl
    | some p =>
      obtain ⟨e, he, hk⟩ := (key_mem_entries_iff c hc key).mpr ⟨p, hcx⟩
      exact absurd hk (hnone e he)

/-- In the cache holding `b -> y` in front of `a -> x`, `Get(a)` moves `a -> x` to the front. -/
theorem C17_get_frame_witness :
    (((smallCache.Set entryA.key entryA.value).Set entryB.key entryB.value).Get
      entryA.key).1 = (entryA.value, true) ∧
    (((smallCache.Set entryA.key entryA.value).Set entryB.key entryB.value).Get
      entryA.key).2.entries = [entryA, entryB] ∧
    ((smallCache.Set entryA.key entryA.value).Set entryB.key entryB.value).Get entryC.key
      = (([], false), (smallCache.Set entryA.key entryA.value).Set entryB.key entryB.value) :=
  ⟨((C17_get_frame _ (consistent_Set _ _ _ (consistent_Set _ _ _ (consistent_emptyCache 4)))
      entryA.key).1 entryA.value (by decide)).1,
    by decide,
    (C17_get_frame _ (consistent_Set _ _ _ (consistent_Set _ _ _ (consistent_emptyCache 4)))
      entryC.key).2.1 (by decide)⟩

/-- C18. The function `parse` never returns `errInvalidStruct`: whenever the
32-byte or the 36-byte loop runs to completion, `hexCount` is 32 and
`dashCount` is 4. -/
theorem C18_invalid_structure_unreachable (id : GoString) :
    parse id ≠ .err .errInvalidStruct ∧
    (∀ s, id.length = 32 → forLoop (body32 id) 32 0 initState = .ok s →
      s.hexCount = 32 ∧ s.dashCount = 4) ∧
    (∀ s, id.length = 36 → forLoop (body36 id) 36 0 initState = .ok s →
      s.hexCount = 32 ∧ s.dashCount = 4) := by
  refine ⟨?_, ?_, ?_⟩
  · rcases parse_cases id with ⟨_, hp⟩ | ⟨_, hp⟩ | ⟨_, _, e, hp, hne⟩
    · rw [hp]; simp
    · rw [hp]; simp
    · rw [hp]; intro h; cases h; exact hne rfl
  · intro s hlen hs
    rw [scan32_eq id hlen] at hs
    split at hs
    · cases hs; exact ⟨rfl, rfl⟩
    · cases hs
  · intro s hlen hs
    by_cases hv : ∀ k, k < 36 → ValidAt36 id k
    · rw [scan36_ok id hlen hv] at hs
      cases hs; exact ⟨rfl, rfl⟩
    · obtain ⟨m, hm, hbad, hfirst⟩ := exists_first_invalid id hv
      rw [scan36_err id hlen m hm hbad hfirst] at hs
      cases hs

set_option maxRecDepth 100000 in
/-- Both loops, run to completion on the samples, end with 32 digits and 4 hyphens. -/
theorem C18_invalid_structure_unreachable_witness :
    parse sampleUndashed ≠ .err .errInvalidStruct ∧
    (∃ s, forLoop (body32 sampleUndashed) 32 0 initState = .ok s ∧
      s.hexCount = 32 ∧ s.dashCount = 4) ∧
    (∃ s, forLoop (body36 sampleDashed) 36 0 initState = .ok s ∧
      s.hexCount = 32 ∧ s.dashCount = 4) :=
  ⟨(C18_invalid_structure_unreachable sampleUndashed).1,
    ⟨{ buf := sampleDashed, j := 36, hexCount := 32, dashCount := 4 }, by decide,
      (C18_invalid_structure_unreachable sampleUndashed).2.1 _ (by decide) (by decide)⟩,
    ⟨{ buf := sampleDashed, j := 36, hexCount := 32, dashCount := 4 }, by decide,
      (C18_invalid_structure_unreachable sampleDashed).2.2 _ (by decide) (by decide)⟩⟩

/-- C19. Consistency holds for the cache of `NewNoOpCache` and is preserved by
`Get`, by `Set`, by `evictIfNeeded` and by each iteration of its loop.  In a
consistent cache the keys of the map are the keys of the list entries, no key
occurs twice in the list, the map sends a key to a linked element carrying that
key, `currSize` is the sum of the entry sizes and so is not negative, an empty
list has `currSize = 0`, and, the capacity being non-negative, the loop of
`evictIfNeeded` never finds the list empty. -/
theorem C19_consistency_invariant :
    NewNoOpCache.Consistent ∧
    (∀ (c : NoOpCache) (key : GoString), c.Consistent → (c.Get key).2.Consistent) ∧
    (∀ (c : NoOpCache) (key value : GoString), c.Consistent → (c.Set key value).Consistent) ∧
    (∀ c : NoOpCache, c.Consistent → c.evictIfNeeded.Consistent) ∧
    (∀ (c : NoOpCache) (elem : Nat), c.Consistent → c.order.getLast? = some elem →
      ({ c with
          order := listRemove c.order elem
          cache := Function.update c.cache (c.heap elem).key none
          currSize := c.currSize - entrySize (c.heap elem) } : NoOpCache).Consistent) ∧
    (∀ c : NoOpCache, c.Consistent →
      (∀ k, (c.cache k).isSome ↔ ∃ e ∈ c.entries, e.key = k) ∧
      (c.entries.map fun e => e.key).Nodup ∧
      (∀ k p, c.cache k = some p → p ∈ c.order ∧ (c.heap p).key = k) ∧
      c.currSize = sizeSum c.entries ∧
      0 ≤ c.currSize ∧
      (c.order = [] → c.currSize = 0) ∧
      (0 ≤ c.maxSize → c.currSize > c.maxSize → c.order.getLast? ≠ none)) := by
  refine ⟨consistent_emptyCache _, fun c key hc => consistent_Get c key hc,
    fun c key value hc => consistent_Set c key value hc,
    fun c hc => consistent_evictLoop _ c hc,
    fun c elem hc h => consistent_evictStep c elem hc (List.mem_of_getLast?_eq_some h), ?_⟩
  intro c hc
  have hsz : c.currSize = sizeSum c.entries := by rw [hc.size, totalSize_eq_sizeSum]
  have hnil : c.order = [] → c.currSize = 0 := by
    intro h
    rw [hsz]
    unfold NoOpCache.entries
    rw [h]
    rfl
  refine ⟨?_, keys_nodup c hc, fun k p h => (hc.index k p).mp h, hsz, ?_, hnil, ?_⟩
  · intro k
    rw [key_mem_entries_iff c hc k, Option.isSome_iff_exists]
  · rw [hsz]; exact sizeSum_nonneg _
  · intro hmax hgt hlast
    have := hnil (List.getLast?_eq_none_iff.mp hlast)
    omega

/-- The invariant in the state after three `Set` calls on a cache of capacity 4. -/
theorem C19_consistency_invariant_witness :
    (((smallCache.Set entryA.key entryA.value).Set entryB.key entryB.value).Set
      entryC.key entryC.value).Consistent :=
  C19_consistency_invariant.2.2.1 _ _ _
    (C19_consistency_invariant.2.2.1 _ _ _
      (C19_consistency_invariant.2.2.1 _ _ _ (consistent_emptyCache 4)))

/-- C20. In every state of a cache created by `NewNoOpCache` and accessed only
through `IDParser.Parse`, by any number of parsers, each stored entry
`(k, v)` satisfies `parse k = ok v`, every hit of `Get` returns the value of
`parse`, and `Parse(x)` returns exactly what `parse x` returns, on a hit and on
a miss; the state after the call is again such a state. -/
theorem C20_parse_only_cache (c : NoOpCache) (h : ParseReachable c) :
    (∀ e ∈ c.entries, parse e.key = .ok e.value) ∧
    (∀ k v, (c.Get k).1 = (v, true) → parse k = .ok v) ∧
    (∀ x, (IDParser.Parse noOpCache c x).1 = parse x ∧
      ParseReachable (IDParser.Parse noOpCache c x).2) := by
  obtain ⟨hc, hval⟩ := parseReachable_inv c h
  have hget : ∀ k v, (c.Get k).1 = (v, true) → parse k = .ok v := by
    intro k v hg
    obtain ⟨p, hp, hv⟩ := Get_hit_cache c k v hg
    obtain ⟨hmem, hk⟩ := (hc.index k p).mp hp
    have := hval (c.heap p) (List.mem_map.mpr ⟨p, hmem, rfl⟩)
    rw [hk, hv] at this
    exact this
  refine ⟨hval, hget, fun x => ?_⟩
  cases hcx : c.cache x with
  | some p =>
    obtain ⟨h1, h2⟩ := Parse_of_hit c x p hcx
    rw [h1]
    exact ⟨(hget x _ h2).symm, .get c x h⟩
  | none =>
    refine ⟨Parse_of_miss c x hcx, ?_⟩
    cases hp : parse x with
    | ok v =>
      rw [Parse_of_miss_ok c x v hcx hp]
      exact .set c x v h hp
    | err e =>
      have : (IDParser.Parse noOpCache c x).1 = .err e := by rw [Parse_of_miss c x hcx, hp]
      rw [(Parse_err_state noOpCache c x e this).2.2]
      exact .get c x h
    | crash =>
      have := parse_cases x
      rw [hp] at this
      simp at this

set_option maxRecDepth 100000 in
/-- After `Parse` of the undashed sample on a fresh cache, the cache answers as `parse` does. -/
theorem C20_parse_only_cache_witness :
    (IDParser.Parse noOpCache (IDParser.Parse noOpCache NewNoOpCache sampleUndashed).2
      sampleUndashed).1 = parse sampleUndashed ∧
    (IDParser.Parse noOpCache (IDParser.Parse noOpCache NewNoOpCache sampleUndashed).2
      sampleInvalidChar).1 = parse sampleInvalidChar :=
  ⟨((C20_parse_only_cache _
      ((C20_parse_only_cache _ .init).2.2 sampleUndashed).2).2.2 sampleUndashed).1,
   ((C20_parse_only_cache _
      ((C20_parse_only_cache _ .init).2.2 sampleUndashed).2).2.2 sampleInvalidChar).1⟩


end NotionID
